import Mathlib

/-!
Verification of the value-cloning utilities of `src/core_javascript_sample.js`
(`copyObject`, `copyObjectDeep`, `copyObjectViaJSON`) and of the
partial-application helper (`partial`, modelled as `partialFn`).

Two embeddings are used:

* a tree model (`CoreJS`): JavaScript values as finite trees.  Every
  composite (object or array) carries an identity `id : Nat`, standing for
  its heap address; cloning threads an allocation counter, and a freshly
  allocated composite receives the current counter value as its id.  This
  model can only represent acyclic values, which is exactly the domain on
  which the recursive functions of the source terminate.  Numbers are
  modelled as integers (`Int`); floating-point rounding, `NaN` and the
  infinities are out of scope (`vnan` is kept only as the result of
  non-numeric addition).  Objects carry an explicit prototype so that the
  `for...in` loops of the source, which walk the property-resolution chain,
  are modelled faithfully.

* a heap model (`HVal`, `HNode`, `Heap`): values as references into an
  explicit association-list heap, so that cyclic inputs are representable.
  The recursive functions are embedded with a fuel parameter bounding the
  recursion depth: `none` means the depth exceeded the fuel, so "`none`
  for every fuel" is non-termination of the original recursion.
-/

namespace CoreJS

/-- A JavaScript value in the tree model.  `vobj` is a key-value mapping
with identity `id`, own enumerable data fields `fields` (in insertion
order) and prototype `proto` (`vnull` for a literal, whose
`Object.prototype` contributes no enumerable key).  `varr` is an ordered
sequence with identity `id`.  `vfun` is a callable, identified only by its
reference `id`.  `vnan` is the not-a-number result of non-numeric
addition. -/
inductive Value : Type where
  | vundef : Value
  | vnull : Value
  | vnan : Value
  | vbool (b : Bool) : Value
  | vnum (n : Int) : Value
  | vstr (s : String) : Value
  | vsym (s : String) : Value
  | vfun (id : Nat) : Value
  | vobj (id : Nat) (fields : List (String × Value)) (proto : Value) : Value
  | varr (id : Nat) (elems : List Value) : Value

/-- `typeof target === 'object' && target !== null`: the composite test used
by `copyObjectDeep` (functions have `typeof` `'function'`). -/
def isComposite : Value → Bool
  | .vobj _ _ _ => true
  | .varr _ _ => true
  | _ => false

/-- Index keys of an ordered sequence starting at `i`: the enumerable own
properties of an array (or of a string wrapper) are its indices as decimal
strings. -/
def arrEnum : List Value → Nat → List (String × Value)
  | [], _ => []
  | v :: t, i => (toString i, v) :: arrEnum t (i + 1)

/-- Enumerable own properties of a text primitive: one single-character
string per index. -/
def strEnum (s : String) : List (String × Value) :=
  arrEnum (s.data.map (fun ch => Value.vstr (String.mk [ch]))) 0

/-- All enumerable keys along the property-resolution chain, own keys
first, possibly with repeats (a shadowed inherited key repeats later). -/
def forInRaw : Value → List (String × Value)
  | .vobj _ fs p => fs ++ forInRaw p
  | .varr _ es => arrEnum es 0
  | _ => []

/-- Keep only the first entry for each key.  `for...in` visits each
property name at most once, own properties shadowing inherited ones. -/
def dedupKeys : List (String × Value) → List (String × Value)
  | [] => []
  | (k, v) :: t => (k, v) :: dedupKeys (t.filter (fun kv => kv.1 ≠ k))
  termination_by l => l.length
  decreasing_by
    simp only [List.length_cons]
    exact Nat.lt_succ_of_le (List.length_filter_le _ _)

/-- The sequence of `(prop, target[prop])` visited by
`for (var prop in target)`, in order, each key once. -/
def jsForIn : Value → List (String × Value)
  | .vstr s => dedupKeys (strEnum s)
  | v => dedupKeys (forInRaw v)

/-- `copyObject` (shallow copy) from the source: `var result = {}; for (var
prop in target) { result[prop] = target[prop]; } return result;`.  The
fresh `{}` literal is allocated at the current counter `c`; the returned
counter is the next free identity. -/
def copyObject (target : Value) (c : Nat) : Value × Nat :=
  (Value.vobj c (jsForIn target) Value.vnull, c + 1)

theorem mem_arrEnum {es : List Value} {i : Nat} {kv : String × Value}
    (h : kv ∈ arrEnum es i) : kv.2 ∈ es := by
  induction es generalizing i with
  | nil => simp [arrEnum] at h
  | cons v t ih =>
    simp only [arrEnum, List.mem_cons] at h
    rcases h with h | h
    · subst h; exact List.mem_cons_self _ _
    · exact List.mem_cons_of_mem _ (ih h)

theorem mem_dedupKeys {l : List (String × Value)} {kv : String × Value}
    (h : kv ∈ dedupKeys l) : kv ∈ l := by
  induction l using dedupKeys.induct with
  | case1 => simp [dedupKeys] at h
  | case2 k v t ih =>
    simp only [dedupKeys, List.mem_cons] at h
    rcases h with h | h
    · subst h; exact List.mem_cons_self _ _
    · exact List.mem_cons_of_mem _ (List.mem_of_mem_filter (ih h))

mutual

/-- Computable size of a value tree, the termination measure for the
recursive clone. -/
def vsize : Value → Nat
  | .vobj _ fs p => 1 + vsizeFields fs + vsize p
  | .varr _ es => 1 + vsizeElems es
  | _ => 1

def vsizeFields : List (String × Value) → Nat
  | [] => 0
  | kv :: t => 1 + vsize kv.2 + vsizeFields t

def vsizeElems : List Value → Nat
  | [] => 0
  | v :: t => 1 + vsize v + vsizeElems t

end

theorem vsize_mem_fields {fs : List (String × Value)} {kv : String × Value}
    (h : kv ∈ fs) : vsize kv.2 < 1 + vsizeFields fs := by
  induction fs with
  | nil => simp at h
  | cons a t ih =>
    rcases List.mem_cons.mp h with h | h
    · subst h; simp [vsizeFields]; omega
    · have := ih h; simp [vsizeFields]; omega

theorem vsize_mem_elems {es : List Value} {v : Value}
    (h : v ∈ es) : vsize v < 1 + vsizeElems es := by
  induction es with
  | nil => simp at h
  | cons a t ih =>
    rcases List.mem_cons.mp h with h | h
    · subst h; simp [vsizeElems]; omega
    · have := ih h; simp [vsizeElems]; omega

theorem vsize_mem_forInRaw :
    ∀ (v : Value) (kv : String × Value), kv ∈ forInRaw v → vsize kv.2 < vsize v
  | .vobj id fs p, kv, h => by
    simp only [forInRaw, List.mem_append] at h
    rcases h with h | h
    · have := vsize_mem_fields h
      simp only [vsize]; omega
    · have := vsize_mem_forInRaw p kv h
      simp only [vsize]; omega
  | .varr id es, kv, h => by
    simp only [forInRaw] at h
    have h1 : kv.2 ∈ es := mem_arrEnum h
    have := vsize_mem_elems h1
    simp only [vsize]; omega
  | .vundef, kv, h => by simp [forInRaw] at h
  | .vnull, kv, h => by simp [forInRaw] at h
  | .vnan, kv, h => by simp [forInRaw] at h
  | .vbool _, kv, h => by simp [forInRaw] at h
  | .vnum _, kv, h => by simp [forInRaw] at h
  | .vstr _, kv, h => by simp [forInRaw] at h
  | .vsym _, kv, h => by simp [forInRaw] at h
  | .vfun _, kv, h => by simp [forInRaw] at h

theorem vsize_mem_jsForIn (v : Value) (hc : isComposite v = true)
    (kv : String × Value) (h : kv ∈ jsForIn v) : vsize kv.2 < vsize v := by
  have hraw : kv ∈ forInRaw v := by
    rcases v with _ | _ | _ | b | n | s | s | f | ⟨id, fs, p⟩ | ⟨id, es⟩ <;>
      first
        | exact mem_dedupKeys (by simpa [jsForIn] using h)
        | simp [isComposite] at hc
  exact vsize_mem_forInRaw v kv hraw

mutual

/-- `copyObjectDeep` from the source: `var result = {}; if (typeof target
=== 'object' && target !== null) { for (var prop in target) { result[prop]
= copyObjectDeep(target[prop]); } } else { result = target; } return
result;`.  For a composite the fresh `{}` is allocated at counter `c` and
the members are cloned recursively with the following counters; any other
value (including a Callable) is returned as-is. -/
def copyObjectDeep (target : Value) (c : Nat) : Value × Nat :=
  if h : isComposite target then
    let r := copyDeepFields (jsForIn target) (c + 1) (vsize target)
      (fun kv hm => vsize_mem_jsForIn target h kv hm)
    (Value.vobj c r.1 Value.vnull, r.2)
  else (target, c)
termination_by (vsize target + 1, 0)
decreasing_by
  exact Prod.Lex.left _ _ (Nat.lt_succ_self _)

/-- The body of the `for...in` loop of `copyObjectDeep`: clone each visited
member in order, threading the allocation counter.  `b` bounds the sizes
of the member values (it is the size of the object being copied). -/
def copyDeepFields (kvs : List (String × Value)) (c : Nat) (b : Nat)
    (h : ∀ kv ∈ kvs, vsize kv.2 < b) : List (String × Value) × Nat :=
  match kvs with
  | [] => ([], c)
  | (k, v) :: t =>
    let r1 := copyObjectDeep v c
    let r2 := copyDeepFields t r1.2 b
      (fun kv hm => h kv (List.mem_cons_of_mem _ hm))
    ((k, r1.1) :: r2.1, r2.2)
termination_by (b, kvs.length + 1)
decreasing_by
  · have hv : vsize v < b := h (k, v) (List.mem_cons_self _ _)
    rcases Nat.lt_or_ge (vsize v + 1) b with hb | hb
    · exact Prod.Lex.left _ _ hb
    · have : vsize v + 1 = b := Nat.le_antisymm hv hb
      subst this
      exact Prod.Lex.right _ (Nat.succ_pos _)
  · exact Prod.Lex.right _ (Nat.lt_succ_self _)

end

/-- Normal form of a value under the spec's notion of structural equality:
identities are erased, both composite kinds are flattened to a mapping of
their enumerable entries (`same enumerable keys, with recursively equal
values`), and primitives and Callables are kept (a Callable keeps its
reference id: Callables are compared by reference). -/
def strip (v : Value) : Value :=
  if h : isComposite v then
    Value.vobj 0 ((jsForIn v).attach.map (fun kv => (kv.1.1, strip kv.1.2))) Value.vnull
  else v
termination_by vsize v
decreasing_by exact vsize_mem_jsForIn v h _ kv.2

/-- Proof-free unfolding of `strip`. -/
theorem strip_eq (v : Value) :
    strip v = if isComposite v then
      Value.vobj 0 ((jsForIn v).map (fun kv => (kv.1, strip kv.2))) Value.vnull
    else v := by
  rw [strip]
  by_cases h : isComposite v
  · simp only [h, dif_pos, if_pos]
    congr 1
    rw [List.attach_map_val (jsForIn v) (fun kv => (kv.1, strip kv.2))]
  · simp [h]

/-- `Structurally equal` in the sense of the spec: same enumerable keys
with recursively equal values, composite identity (and kind) ignored,
primitives compared by value and Callables by reference. -/
def structurallyEq (a b : Value) : Prop := strip a = strip b

/-- The loop of `copyObjectDeep` restated without the termination bound:
clone each visited member in order, threading the allocation counter. -/
def copyDeepFieldsP : List (String × Value) → Nat → List (String × Value) × Nat
  | [], c => ([], c)
  | (k, v) :: t, c =>
    let r1 := copyObjectDeep v c
    let r2 := copyDeepFieldsP t r1.2
    ((k, r1.1) :: r2.1, r2.2)

theorem copyDeepFields_eq_p (kvs : List (String × Value)) :
    ∀ (c b : Nat) (h : ∀ kv ∈ kvs, vsize kv.2 < b),
      copyDeepFields kvs c b h = copyDeepFieldsP kvs c := by
  induction kvs with
  | nil => intro c b h; rw [copyDeepFields, copyDeepFieldsP]
  | cons kv t ih =>
    intro c b h
    obtain ⟨k, v⟩ := kv
    rw [copyDeepFields, copyDeepFieldsP]
    simp only [ih]

/-- Proof-free unfolding of `copyObjectDeep`. -/
theorem copyObjectDeep_eq (v : Value) (c : Nat) :
    copyObjectDeep v c = if isComposite v then
      ((Value.vobj c (copyDeepFieldsP (jsForIn v) (c + 1)).1 Value.vnull),
        (copyDeepFieldsP (jsForIn v) (c + 1)).2)
    else (v, c) := by
  rw [copyObjectDeep]
  by_cases h : isComposite v
  · simp only [h, dif_pos, if_pos, copyDeepFields_eq_p]
  · simp [h]

theorem vsize_pos (v : Value) : 1 ≤ vsize v := by
  cases v <;> simp [vsize] <;> omega

theorem isComposite_vobj (i : Nat) (fs : List (String × Value)) (p : Value) :
    isComposite (Value.vobj i fs p) = true := rfl

theorem keys_dedupKeys_nodup (l : List (String × Value)) :
    ((dedupKeys l).map Prod.fst).Nodup := by
  induction l using dedupKeys.induct with
  | case1 => simp [dedupKeys]
  | case2 k v t ih =>
    rw [dedupKeys]
    simp only [List.map_cons, List.nodup_cons]
    refine ⟨fun hmem => ?_, ih⟩
    obtain ⟨kv, hkv, hfst⟩ := List.mem_map.mp hmem
    have := List.of_mem_filter (mem_dedupKeys hkv)
    simp only [decide_not, Bool.not_eq_true', decide_eq_false_iff_not] at this
    exact this hfst

theorem dedupKeys_eq_self {l : List (String × Value)}
    (h : (l.map Prod.fst).Nodup) : dedupKeys l = l := by
  induction l with
  | nil => rw [dedupKeys]
  | cons kv t ih =>
    obtain ⟨k, v⟩ := kv
    simp only [List.map_cons, List.nodup_cons] at h
    rw [dedupKeys]
    have hfilter : t.filter (fun kv => kv.1 ≠ k) = t := by
      apply List.filter_eq_self.mpr
      intro kv hkv
      simp only [ne_eq, decide_not, Bool.not_eq_true', decide_eq_false_iff_not]
      intro hk
      exact h.1 (List.mem_map.mpr ⟨kv, hkv, hk⟩)
    rw [hfilter, ih h.2]

theorem jsForIn_keys_nodup (v : Value) : ((jsForIn v).map Prod.fst).Nodup := by
  rcases v with _ | _ | _ | b | n | s | s | f | ⟨id, fs, p⟩ | ⟨id, es⟩ <;>
    simp only [jsForIn] <;> exact keys_dedupKeys_nodup _

theorem jsForIn_obj_nullproto (c : Nat) (fs : List (String × Value)) :
    jsForIn (Value.vobj c fs Value.vnull) = dedupKeys fs := by
  simp [jsForIn, forInRaw]

theorem cdfP_keys (kvs : List (String × Value)) :
    ∀ c, ((copyDeepFieldsP kvs c).1).map Prod.fst = kvs.map Prod.fst := by
  induction kvs with
  | nil => intro c; simp [copyDeepFieldsP]
  | cons kv t ih =>
    intro c
    obtain ⟨k, v⟩ := kv
    simp only [copyDeepFieldsP, List.map_cons, List.cons.injEq]
    exact ⟨trivial, ih _⟩

theorem cdfP_map_strip (n : Nat)
    (ih : ∀ v c, vsize v ≤ n → strip (copyObjectDeep v c).1 = strip v) :
    ∀ (kvs : List (String × Value)), (∀ kv ∈ kvs, vsize kv.2 ≤ n) → ∀ c,
      ((copyDeepFieldsP kvs c).1).map (fun kv => (kv.1, strip kv.2))
        = kvs.map (fun kv => (kv.1, strip kv.2)) := by
  intro kvs
  induction kvs with
  | nil => intro _ c; simp [copyDeepFieldsP]
  | cons kv t iht =>
    intro hb c
    obtain ⟨k, v⟩ := kv
    simp only [copyDeepFieldsP, List.map_cons, List.cons.injEq]
    constructor
    · simp only [Prod.mk.injEq, true_and]
      exact ih v c (hb (k, v) (List.mem_cons_self _ _))
    · exact iht (fun kv hm => hb kv (List.mem_cons_of_mem _ hm)) _

theorem strip_copyDeep_bounded :
    ∀ (n : Nat) (v : Value) (c : Nat), vsize v ≤ n →
      strip (copyObjectDeep v c).1 = strip v := by
  intro n
  induction n with
  | zero => intro v c h; have := vsize_pos v; omega
  | succ n ih =>
    intro v c hle
    by_cases hv : isComposite v
    · have hkeys : (((copyDeepFieldsP (jsForIn v) (c + 1)).1).map Prod.fst).Nodup := by
        rw [cdfP_keys]; exact jsForIn_keys_nodup v
      have hb : ∀ kv ∈ jsForIn v, vsize kv.2 ≤ n := by
        intro kv hm
        have := vsize_mem_jsForIn v hv kv hm
        omega
      rw [copyObjectDeep_eq, if_pos hv]
      rw [strip_eq v, if_pos hv]
      rw [strip_eq, if_pos (isComposite_vobj _ _ _)]
      rw [jsForIn_obj_nullproto, dedupKeys_eq_self hkeys,
        cdfP_map_strip n ih (jsForIn v) hb (c + 1)]
    · rw [copyObjectDeep_eq]
      simp [hv]

/-- The deep clone of any value is structurally equal to it: `strip` does
not change under `copyObjectDeep`. -/
theorem strip_copyDeep (v : Value) (c : Nat) :
    strip (copyObjectDeep v c).1 = strip v :=
  strip_copyDeep_bounded (vsize v) v c le_rfl

mutual

/-- The identities of every Composite occurring anywhere in a value tree
(the object itself, its members at any depth, and its prototype chain):
two values share a Composite reference exactly when these lists
intersect. -/
def compIds : Value → List Nat
  | .vobj i fs p => i :: (compIdsFields fs ++ compIds p)
  | .varr i es => i :: compIdsElems es
  | _ => []

def compIdsFields : List (String × Value) → List Nat
  | [] => []
  | kv :: t => compIds kv.2 ++ compIdsFields t

def compIdsElems : List Value → List Nat
  | [] => []
  | v :: t => compIds v ++ compIdsElems t

end

theorem compIds_mem_fields {fs : List (String × Value)} {kv : String × Value}
    (hm : kv ∈ fs) {i : Nat} (hi : i ∈ compIds kv.2) : i ∈ compIdsFields fs := by
  induction fs with
  | nil => simp at hm
  | cons a t ih =>
    rcases List.mem_cons.mp hm with h | h
    · subst h; simp only [compIdsFields, List.mem_append]; exact Or.inl hi
    · simp only [compIdsFields, List.mem_append]; exact Or.inr (ih h)

/-- Any Composite inside a member visited by `for...in` is a Composite
inside the whole value. -/
theorem compIds_mem_forInRaw :
    ∀ (v : Value) (kv : String × Value), kv ∈ forInRaw v →
      ∀ i ∈ compIds kv.2, i ∈ compIds v
  | .vobj id fs p, kv, h => by
    simp only [forInRaw, List.mem_append] at h
    intro i hi
    simp only [compIds, List.mem_cons, List.mem_append]
    rcases h with h | h
    · exact Or.inr (Or.inl (compIds_mem_fields h hi))
    · exact Or.inr (Or.inr (compIds_mem_forInRaw p kv h i hi))
  | .varr id es, kv, h => by
    simp only [forInRaw] at h
    intro i hi
    have h1 : kv.2 ∈ es := mem_arrEnum h
    simp only [compIds, List.mem_cons]
    refine Or.inr ?_
    clear h
    induction es with
    | nil => simp at h1
    | cons a t ih =>
      rcases List.mem_cons.mp h1 with h | h
      · subst h; simp only [compIdsElems, List.mem_append]; exact Or.inl hi
      · simp only [compIdsElems, List.mem_append]; exact Or.inr (ih h)
  | .vundef, kv, h => by simp [forInRaw] at h
  | .vnull, kv, h => by simp [forInRaw] at h
  | .vnan, kv, h => by simp [forInRaw] at h
  | .vbool _, kv, h => by simp [forInRaw] at h
  | .vnum _, kv, h => by simp [forInRaw] at h
  | .vstr _, kv, h => by simp [forInRaw] at h
  | .vsym _, kv, h => by simp [forInRaw] at h
  | .vfun _, kv, h => by simp [forInRaw] at h

theorem compIds_mem_jsForIn (v : Value) (kv : String × Value)
    (h : kv ∈ jsForIn v) : ∀ i ∈ compIds kv.2, i ∈ compIds v := by
  rcases v with _ | _ | _ | b | n | s | s | f | ⟨id, fs, p⟩ | ⟨id, es⟩
  case vstr =>
    intro i hi
    have hs : kv ∈ strEnum s := mem_dedupKeys (by simpa [jsForIn] using h)
    exfalso
    obtain ⟨ch, _, hch⟩ := by
      simpa [strEnum] using List.mem_map.mp (mem_arrEnum hs)
    rw [← hch] at hi
    simp [compIds] at hi
  all_goals
    exact compIds_mem_forInRaw _ kv (mem_dedupKeys (by simpa [jsForIn] using h))

theorem cdfP_ids (n : Nat)
    (ih : ∀ v c, vsize v ≤ n → c ≤ (copyObjectDeep v c).2 ∧
      ∀ i ∈ compIds (copyObjectDeep v c).1, c ≤ i ∧ i < (copyObjectDeep v c).2) :
    ∀ (kvs : List (String × Value)), (∀ kv ∈ kvs, vsize kv.2 ≤ n) → ∀ c,
      c ≤ (copyDeepFieldsP kvs c).2 ∧
      ∀ i ∈ compIdsFields (copyDeepFieldsP kvs c).1,
        c ≤ i ∧ i < (copyDeepFieldsP kvs c).2 := by
  intro kvs
  induction kvs with
  | nil => intro _ c; simp [copyDeepFieldsP, compIdsFields]
  | cons kv t iht =>
    intro hb c
    obtain ⟨k, v⟩ := kv
    have h1 := ih v c (hb (k, v) (List.mem_cons_self _ _))
    have h2 := iht (fun kv hm => hb kv (List.mem_cons_of_mem _ hm))
      (copyObjectDeep v c).2
    simp only [copyDeepFieldsP, compIdsFields, List.mem_append]
    refine ⟨le_trans h1.1 h2.1, ?_⟩
    intro i hi
    rcases hi with hi | hi
    · have := h1.2 i hi
      exact ⟨this.1, lt_of_lt_of_le this.2 h2.1⟩
    · have := h2.2 i hi
      exact ⟨le_trans h1.1 this.1, this.2⟩

theorem copyDeep_ids_bounded :
    ∀ (n : Nat) (v : Value) (c : Nat), vsize v ≤ n →
      c ≤ (copyObjectDeep v c).2 ∧
      ∀ i ∈ compIds (copyObjectDeep v c).1, c ≤ i ∧ i < (copyObjectDeep v c).2 := by
  intro n
  induction n with
  | zero => intro v c h; have := vsize_pos v; omega
  | succ n ih =>
    intro v c hle
    by_cases hv : isComposite v
    · have hb : ∀ kv ∈ jsForIn v, vsize kv.2 ≤ n := by
        intro kv hm
        have := vsize_mem_jsForIn v hv kv hm
        omega
      have hl := cdfP_ids n ih (jsForIn v) hb (c + 1)
      rw [copyObjectDeep_eq, if_pos hv]
      simp only [compIds, List.append_nil, List.mem_cons]
      refine ⟨by omega, ?_⟩
      intro i hi
      rcases hi with hi | hi
      · subst hi; omega
      · have := hl.2 i hi
        omega
    · rw [copyObjectDeep_eq]
      simp [hv, compIds]
      intro i hi
      rcases v with _ | _ | _ | b | m | s | s | f | ⟨id, fs, p⟩ | ⟨id, es⟩ <;>
        simp [compIds] at hi <;> simp [isComposite] at hv

/-- The counter does not decrease, and every Composite identity in the
output of `copyObjectDeep v c` is fresh: at least `c` and below the
returned counter. -/
theorem copyDeep_ids (v : Value) (c : Nat) :
    c ≤ (copyObjectDeep v c).2 ∧
    ∀ i ∈ compIds (copyObjectDeep v c).1, c ≤ i ∧ i < (copyObjectDeep v c).2 :=
  copyDeep_ids_bounded (vsize v) v c le_rfl

/-- The top-level entries of a mapping (empty for any other value). -/
def objFields : Value → List (String × Value)
  | .vobj _ fs _ => fs
  | _ => []

/-- First entry for key `k`, the value read by property access. -/
def lookupKey : List (String × Value) → String → Option Value
  | [], _ => none
  | (k', v) :: t, k => if k' = k then some v else lookupKey t k

theorem lookupKey_filter : ∀ (t : List (String × Value)) (k k' : String), k ≠ k' →
    lookupKey (t.filter (fun kv => kv.1 ≠ k')) k = lookupKey t k := by
  intro t k k' hne
  induction t with
  | nil => rfl
  | cons a t ih =>
    obtain ⟨ka, va⟩ := a
    by_cases hka : ka = k'
    · subst hka
      rw [List.filter_cons_of_neg (by simp)]
      rw [ih]
      have hk : ka ≠ k := Ne.symm hne
      simp [lookupKey, hk]
    · rw [List.filter_cons_of_pos (by simpa using hka)]
      simp only [lookupKey, ih]

theorem lookupKey_dedupKeys : ∀ (l : List (String × Value)) (k : String),
    lookupKey (dedupKeys l) k = lookupKey l k := by
  intro l
  induction l using dedupKeys.induct with
  | case1 => intro k; rw [dedupKeys]
  | case2 k' v t ih =>
    intro k
    rw [dedupKeys]
    by_cases hk : k' = k
    · subst hk; simp [lookupKey]
    · simp only [lookupKey, if_neg hk]
      rw [ih, lookupKey_filter t k k' (fun h => hk h.symm)]

theorem lookupKey_append_none : ∀ {l1 l2 : List (String × Value)} {k : String},
    lookupKey l1 k = none → lookupKey (l1 ++ l2) k = lookupKey l2 k := by
  intro l1
  induction l1 with
  | nil => intro l2 k _; rfl
  | cons a t ih =>
    intro l2 k h
    obtain ⟨ka, va⟩ := a
    by_cases hka : ka = k
    · simp [lookupKey, hka] at h
    · simp only [lookupKey, if_neg hka, List.cons_append] at h ⊢
      exact ih h

theorem cdfP_map_strip_all (kvs : List (String × Value)) : ∀ c,
    ((copyDeepFieldsP kvs c).1).map (fun kv => (kv.1, strip kv.2))
      = kvs.map (fun kv => (kv.1, strip kv.2)) := by
  induction kvs with
  | nil => intro c; simp [copyDeepFieldsP]
  | cons kv t ih =>
    intro c
    obtain ⟨k, v⟩ := kv
    simp only [copyDeepFieldsP, List.map_cons, List.cons.injEq]
    exact ⟨by simp [strip_copyDeep], ih _⟩

theorem cdfP_mem_fun : ∀ (kvs : List (String × Value)) (c : Nat) (k : String) (f : Nat),
    (k, Value.vfun f) ∈ kvs → (k, Value.vfun f) ∈ (copyDeepFieldsP kvs c).1 := by
  intro kvs
  induction kvs with
  | nil => intro c k f h; simp at h
  | cons kv t ih =>
    intro c k f h
    obtain ⟨k', v'⟩ := kv
    rcases List.mem_cons.mp h with h | h
    · obtain ⟨hk, hv⟩ := Prod.mk.injEq .. ▸ h
      subst hk; subst hv
      have : (copyObjectDeep (Value.vfun f) c).1 = Value.vfun f := by
        rw [copyObjectDeep_eq]; rfl
      simp only [copyDeepFieldsP, this]
      exact List.mem_cons_self _ _
    · simp only [copyDeepFieldsP]
      exact List.mem_cons_of_mem _ (ih _ _ _ h)

theorem dedupKeys_nil : dedupKeys [] = [] := by rw [dedupKeys]

theorem toString_nat_zero : toString (0 : Nat) = "0" := rfl

theorem toString_nat_one : toString (1 : Nat) = "1" := rfl

/-- C1: for every acyclic Composite value `v` — every tree value is
acyclic, and `hids` is the allocator invariant that all identities in `v`
lie below the free counter `c` — the DeepRecursive clone is structurally
equal to `v` (same enumerable keys, with recursively equal values) and
shares no Composite reference with `v` at any depth. -/
theorem copyObjectDeep_structEq_and_fresh (v : Value) (c : Nat)
    (hv : isComposite v = true) (hids : ∀ i ∈ compIds v, i < c) :
    structurallyEq (copyObjectDeep v c).1 v ∧
    ∀ i ∈ compIds (copyObjectDeep v c).1, i ∉ compIds v := by
  refine ⟨strip_copyDeep v c, ?_⟩
  intro i hi hmem
  have h1 := (copyDeep_ids v c).2 i hi
  have h2 := hids i hmem
  omega

theorem copyObjectDeep_structEq_and_fresh_witness :
    structurallyEq
      (copyObjectDeep
        (Value.vobj 5 [("a", Value.vnum 1), ("b", Value.varr 6 [Value.vnum 2])]
          Value.vnull) 7).1
      (Value.vobj 5 [("a", Value.vnum 1), ("b", Value.varr 6 [Value.vnum 2])]
        Value.vnull) ∧
    ∀ i ∈ compIds
      (copyObjectDeep
        (Value.vobj 5 [("a", Value.vnum 1), ("b", Value.varr 6 [Value.vnum 2])]
          Value.vnull) 7).1,
      i ∉ compIds
        (Value.vobj 5 [("a", Value.vnum 1), ("b", Value.varr 6 [Value.vnum 2])]
          Value.vnull) :=
  copyObjectDeep_structEq_and_fresh _ 7 rfl (by decide)

/-- C9: applying the DeepRecursive clone twice yields a result structurally
equal to applying it once, whatever the allocation counters. -/
theorem copyObjectDeep_idem (v : Value) (c c' : Nat) :
    structurallyEq (copyObjectDeep (copyObjectDeep v c).1 c').1
      (copyObjectDeep v c).1 :=
  strip_copyDeep _ _

/-- C4 counterexample: `copyObject` applied to the Primitive `3` does not
return the input itself — the source always allocates and returns a fresh
`{}`, so the shallow clone of a non-Composite is a new empty mapping, not
the input. -/
theorem copyObject_num_not_identity :
    (copyObject (Value.vnum 3) 0).1 ≠ Value.vnum 3 ∧
    (copyObject (Value.vnum 3) 0).1 = Value.vobj 0 [] Value.vnull := by
  constructor
  · intro h
    simp [copyObject] at h
  · show Value.vobj 0 (jsForIn (Value.vnum 3)) Value.vnull = Value.vobj 0 [] Value.vnull
    rw [show jsForIn (Value.vnum 3) = [] from dedupKeys_nil]

/-- C4 amended: for every non-Composite input, `copyObject` returns a
newly allocated mapping holding the input's enumerable entries — empty
for every non-text Primitive and for Callables, index-to-character entries
for text — and never the input itself. -/
theorem copyObject_nonComposite (v : Value) (c : Nat)
    (hv : isComposite v = false) :
    (copyObject v c).1 = Value.vobj c (jsForIn v) Value.vnull ∧
    ((∀ s, v ≠ Value.vstr s) → jsForIn v = []) ∧
    (∀ s, v = Value.vstr s → jsForIn v = dedupKeys (strEnum s)) ∧
    (copyObject v c).1 ≠ v := by
  refine ⟨rfl, ?_, ?_, ?_⟩
  · intro hs
    cases v with
    | vstr s => exact absurd rfl (hs s)
    | vobj id fs p => simp [isComposite] at hv
    | varr id es => simp [isComposite] at hv
    | vundef => exact dedupKeys_nil
    | vnull => exact dedupKeys_nil
    | vnan => exact dedupKeys_nil
    | vbool b => exact dedupKeys_nil
    | vnum n => exact dedupKeys_nil
    | vsym s => exact dedupKeys_nil
    | vfun f => exact dedupKeys_nil
  · intro s hs
    subst hs
    rfl
  · intro h
    cases v with
    | vobj id fs p => simp [isComposite] at hv
    | varr id es => simp [isComposite] at hv
    | vundef => simp [copyObject] at h
    | vnull => simp [copyObject] at h
    | vnan => simp [copyObject] at h
    | vbool b => simp [copyObject] at h
    | vnum n => simp [copyObject] at h
    | vstr s => simp [copyObject] at h
    | vsym s => simp [copyObject] at h
    | vfun f => simp [copyObject] at h

theorem copyObject_nonComposite_witness :
    (copyObject (Value.vnum 3) 4).1 = Value.vobj 4 (jsForIn (Value.vnum 3)) Value.vnull ∧
    ((∀ s, Value.vnum 3 ≠ Value.vstr s) → jsForIn (Value.vnum 3) = []) ∧
    (∀ s, Value.vnum 3 = Value.vstr s → jsForIn (Value.vnum 3) = dedupKeys (strEnum s)) ∧
    (copyObject (Value.vnum 3) 4).1 ≠ Value.vnum 3 :=
  copyObject_nonComposite (Value.vnum 3) 4 rfl

/-- C5 counterexample: the DeepRecursive clone of the ordered sequence
`[1]` is not an ordered sequence — the source always builds `{}`, so the
clone is the mapping with entry `"0" ↦ 1`, not a Composite of the same
kind as the input. -/
theorem copyObjectDeep_arr_not_same_kind :
    (∀ i es, (copyObjectDeep (Value.varr 3 [Value.vnum 1]) 4).1 ≠ Value.varr i es) ∧
    (copyObjectDeep (Value.varr 3 [Value.vnum 1]) 4).1
      = Value.vobj 4 [("0", Value.vnum 1)] Value.vnull := by
  have h2 : (copyObjectDeep (Value.varr 3 [Value.vnum 1]) 4).1
      = Value.vobj 4 [("0", Value.vnum 1)] Value.vnull := by
    simp [copyObjectDeep_eq, copyDeepFieldsP, jsForIn, forInRaw, arrEnum,
      dedupKeys, isComposite, toString_nat_zero]
  refine ⟨?_, h2⟩
  intro i es h
  rw [h2] at h
  simp at h

/-- C5 amended: for every Composite input `v` the DeepRecursive clone
constructs a new empty key-value mapping — regardless of `v`'s kind, an
ordered sequence also yields a mapping — and then assigns, for every
enumerable key in `v`'s property-resolution chain in order, the recursive
clone of `v[key]` (structurally equal to `v[key]`, since the clone is
`strip`-invariant). -/
theorem copyObjectDeep_composite_shape (v : Value) (c : Nat)
    (hv : isComposite v = true) :
    ∃ fs c2, copyObjectDeep v c = (Value.vobj c fs Value.vnull, c2) ∧
      fs.map Prod.fst = (jsForIn v).map Prod.fst ∧
      fs.map (fun kv => (kv.1, strip kv.2))
        = (jsForIn v).map (fun kv => (kv.1, strip kv.2)) := by
  refine ⟨(copyDeepFieldsP (jsForIn v) (c + 1)).1,
    (copyDeepFieldsP (jsForIn v) (c + 1)).2, ?_, cdfP_keys _ _, cdfP_map_strip_all _ _⟩
  rw [copyObjectDeep_eq, if_pos hv]

theorem copyObjectDeep_composite_shape_witness :
    ∃ fs c2, copyObjectDeep (Value.varr 3 [Value.vnum 1]) 4
        = (Value.vobj 4 fs Value.vnull, c2) ∧
      fs.map Prod.fst = (jsForIn (Value.varr 3 [Value.vnum 1])).map Prod.fst ∧
      fs.map (fun kv => (kv.1, strip kv.2))
        = (jsForIn (Value.varr 3 [Value.vnum 1])).map (fun kv => (kv.1, strip kv.2)) :=
  copyObjectDeep_composite_shape (Value.varr 3 [Value.vnum 1]) 4 rfl

/-- C6: for every Composite input, the shallow clone is a newly allocated
mapping whose top-level entries are exactly the `for...in` enumeration of
the input — every enumerable key reachable through the property-resolution
chain, inherited ones included (an inherited key not shadowed by an own
entry is looked up in the clone with the very value of the prototype
chain), each entry holding the same reference as in the input. -/
theorem copyObject_composite (v : Value) (c : Nat)
    (hv : isComposite v = true) (hids : ∀ i ∈ compIds v, i < c) :
    copyObject v c = (Value.vobj c (jsForIn v) Value.vnull, c + 1) ∧
    c ∉ compIds v ∧
    ∀ id fs p, v = Value.vobj id fs p →
      ∀ k w, lookupKey fs k = none →
        lookupKey (dedupKeys (forInRaw p)) k = some w →
        lookupKey (jsForIn v) k = some w := by
  refine ⟨rfl, fun hmem => absurd (hids c hmem) (lt_irrefl c), ?_⟩
  intro id fs p hveq k w hown hp
  subst hveq
  rw [lookupKey_dedupKeys] at hp
  show lookupKey (dedupKeys (fs ++ forInRaw p)) k = some w
  rw [lookupKey_dedupKeys, lookupKey_append_none hown, hp]

theorem copyObject_composite_witness :
    copyObject (Value.vobj 0 [("a", Value.vnum 1)] (Value.vobj 1 [("b", Value.vnum 2)] Value.vnull)) 2
      = (Value.vobj 2
          (jsForIn (Value.vobj 0 [("a", Value.vnum 1)] (Value.vobj 1 [("b", Value.vnum 2)] Value.vnull)))
          Value.vnull, 3) ∧
    2 ∉ compIds (Value.vobj 0 [("a", Value.vnum 1)] (Value.vobj 1 [("b", Value.vnum 2)] Value.vnull)) ∧
    ∀ id fs p,
      Value.vobj 0 [("a", Value.vnum 1)] (Value.vobj 1 [("b", Value.vnum 2)] Value.vnull)
        = Value.vobj id fs p →
      ∀ k w, lookupKey fs k = none →
        lookupKey (dedupKeys (forInRaw p)) k = some w →
        lookupKey (jsForIn (Value.vobj 0 [("a", Value.vnum 1)]
          (Value.vobj 1 [("b", Value.vnum 2)] Value.vnull))) k = some w :=
  copyObject_composite _ 2 rfl (by decide)

/-- C7: for every Composite `v` (ids below the counter), the shallow clone
shares every nested member by reference — each `for...in` entry of `v`,
nested Composites included, appears identically (same identity) among the
clone's entries — while the DeepRecursive clone shares no Composite
reference with `v` at any depth; Callable members are the exception, shared
by reference even by the deep clone. -/
theorem copyObject_shares_copyDeep_does_not (v : Value) (c c' : Nat)
    (hv : isComposite v = true) (hids : ∀ i ∈ compIds v, i < c') :
    (∀ k m, (k, m) ∈ jsForIn v → (k, m) ∈ objFields (copyObject v c).1) ∧
    (∀ i ∈ compIds (copyObjectDeep v c').1, i ∉ compIds v) ∧
    (∀ k f, (k, Value.vfun f) ∈ jsForIn v →
      (k, Value.vfun f) ∈ objFields (copyObjectDeep v c').1) := by
  refine ⟨fun k m hm => hm, ?_, ?_⟩
  · intro i hi hmem
    have h1 := (copyDeep_ids v c').2 i hi
    have h2 := hids i hmem
    omega
  · intro k f hm
    rw [copyObjectDeep_eq, if_pos hv]
    exact cdfP_mem_fun _ _ _ _ hm

/-- `Symbol.for('EMPTY_SPACE')`, the placeholder of `partial`. -/
def EMPTY_SPACE : Value := Value.vsym "EMPTY_SPACE"

/-- `partialArgs[i] === Symbol.for('EMPTY_SPACE')`: strict equality against
the registered placeholder (`Symbol.for` returns the same symbol for the
same key, so the comparison is by key). -/
def isEmptySpace : Value → Bool
  | .vsym s => s = "EMPTY_SPACE"
  | _ => false

/-- The argument splicing done by the closure `partial` returns: each
pre-bound placeholder takes the next call-time argument in order
(`undefined` when none is left, as `Array.prototype.shift` yields on an
empty array), and the remaining call-time arguments are appended. -/
def mergeArgs : List Value → List Value → List Value
  | [], rest => rest
  | p :: ps, rest =>
    if isEmptySpace p then (rest.headD Value.vundef) :: mergeArgs ps rest.tail
    else p :: mergeArgs ps rest

/-- `partial` from the source, modelled as `partialFn` (`partial` is
reserved in Lean): `arguments` is `args`; if its first entry is not a
function an `Error` is thrown, otherwise the returned closure splices the
call-time arguments into the pre-bound ones and applies the function.
`interp` gives the behavior of each Callable id on an argument list
(`func.apply`; the `this` binding plays no role here). -/
def partialFn (interp : Nat → List Value → Value) (args : List Value) :
    Except String (List Value → Value) :=
  match args with
  | Value.vfun fid :: pre => Except.ok (fun rest => interp fid (mergeArgs pre rest))
  | _ => Except.error "첫 번째 인자가 함수가 아닙니다."

/-- `add` from the source: sums its `arguments`, modelled on integer
numbers; a non-number argument poisons the result to NaN (string
concatenation by `+` is out of scope). -/
def add (args : List Value) : Value :=
  args.foldl (fun acc a =>
    match acc, a with
    | Value.vnum x, Value.vnum y => Value.vnum (x + y)
    | _, _ => Value.vnan) (Value.vnum 0)

/-- Whether the first argument passed to `partial` is a function. -/
def headIsFun : List Value → Bool
  | Value.vfun _ :: _ => true
  | _ => false

/-- C10: `partial` raises an Error exactly when its first argument is not
a function; for a function it returns a closure that replaces each
pre-bound placeholder `Symbol.for('EMPTY_SPACE')` with the next call-time
argument in order, appends the remaining call-time arguments, and applies
the function to the spliced list; in particular
`partial(add, 1, 2, _, 4, 5, _, _, 8, 9)(3, 6, 7, 10)` returns `55`. -/
theorem partialFn_spec :
    (∀ (interp : Nat → List Value → Value) (args : List Value),
      (∃ e, partialFn interp args = Except.error e) ↔ headIsFun args = false) ∧
    (∀ (interp : Nat → List Value → Value) (fid : Nat) (pre : List Value),
      partialFn interp (Value.vfun fid :: pre)
        = Except.ok (fun rest => interp fid (mergeArgs pre rest))) ∧
    (∃ g, partialFn (fun _ => add)
        [Value.vfun 0, Value.vnum 1, Value.vnum 2, EMPTY_SPACE, Value.vnum 4,
          Value.vnum 5, EMPTY_SPACE, EMPTY_SPACE, Value.vnum 8, Value.vnum 9]
        = Except.ok g ∧
      g [Value.vnum 3, Value.vnum 6, Value.vnum 7, Value.vnum 10] = Value.vnum 55) := by
  refine ⟨?_, fun interp fid pre => rfl, ?_⟩
  · intro interp args
    constructor
    · intro ⟨e, he⟩
      match args with
      | [] => rfl
      | Value.vfun fid :: pre => simp [partialFn] at he
      | Value.vundef :: t => rfl
      | Value.vnull :: t => rfl
      | Value.vnan :: t => rfl
      | Value.vbool b :: t => rfl
      | Value.vnum n :: t => rfl
      | Value.vstr s :: t => rfl
      | Value.vsym s :: t => rfl
      | Value.vobj i fs p :: t => rfl
      | Value.varr i es :: t => rfl
    · intro hne
      match args with
      | [] => exact ⟨_, rfl⟩
      | Value.vfun fid :: pre => simp [headIsFun] at hne
      | Value.vundef :: t => exact ⟨_, rfl⟩
      | Value.vnull :: t => exact ⟨_, rfl⟩
      | Value.vnan :: t => exact ⟨_, rfl⟩
      | Value.vbool b :: t => exact ⟨_, rfl⟩
      | Value.vnum n :: t => exact ⟨_, rfl⟩
      | Value.vstr s :: t => exact ⟨_, rfl⟩
      | Value.vsym s :: t => exact ⟨_, rfl⟩
      | Value.vobj i fs p :: t => exact ⟨_, rfl⟩
      | Value.varr i es :: t => exact ⟨_, rfl⟩
  · exact ⟨_, rfl, rfl⟩

theorem copyObject_shares_copyDeep_does_not_witness :
    (∀ k m, (k, m) ∈ jsForIn (Value.vobj 0 [("a", Value.varr 1 []), ("f", Value.vfun 9)] Value.vnull) →
      (k, m) ∈ objFields
        (copyObject (Value.vobj 0 [("a", Value.varr 1 []), ("f", Value.vfun 9)] Value.vnull) 2).1) ∧
    (∀ i ∈ compIds
        (copyObjectDeep (Value.vobj 0 [("a", Value.varr 1 []), ("f", Value.vfun 9)] Value.vnull) 2).1,
      i ∉ compIds (Value.vobj 0 [("a", Value.varr 1 []), ("f", Value.vfun 9)] Value.vnull)) ∧
    (∀ k f, (k, Value.vfun f) ∈ jsForIn (Value.vobj 0 [("a", Value.varr 1 []), ("f", Value.vfun 9)] Value.vnull) →
      (k, Value.vfun f) ∈ objFields
        (copyObjectDeep (Value.vobj 0 [("a", Value.varr 1 []), ("f", Value.vfun 9)] Value.vnull) 2).1) :=
  copyObject_shares_copyDeep_does_not _ 5 2 rfl (by decide)


/-- A JavaScript value in the heap model: primitives and function
references as in the tree model, and `href r`, a reference to the heap
node with identity `r`.  Cyclic structures are representable. -/
inductive HVal : Type where
  | hundef : HVal
  | hnull : HVal
  | hbool (b : Bool) : HVal
  | hnum (n : Int) : HVal
  | hstr (s : String) : HVal
  | hsym (s : String) : HVal
  | hfun (id : Nat) : HVal
  | href (r : Nat) : HVal
  deriving DecidableEq, Repr

/-- A heap node: a key-value mapping (own enumerable data fields, keys
distinct, in insertion order) or an ordered sequence. -/
inductive HNode : Type where
  | nobj (fields : List (String × HVal)) : HNode
  | narr (elems : List HVal) : HNode
  deriving DecidableEq, Repr

/-- The heap: an association list from identities to nodes. -/
abbrev Heap := List (Nat × HNode)

def lookupH : Heap → Nat → Option HNode
  | [], _ => none
  | (r', n) :: t, r => if r' = r then some n else lookupH t r

/-- Index keys of an ordered sequence, as in the tree model. -/
def arrEnumH : List HVal → Nat → List (String × HVal)
  | [], _ => []
  | v :: t, i => (toString i, v) :: arrEnumH t (i + 1)

/-- The `for...in` entries of a node: fields of a mapping, index-keyed
elements of a sequence.  These are also exactly the member values that
`JSON.stringify` visits. -/
def nodeEnum : HNode → List (String × HVal)
  | .nobj fs => fs
  | .narr es => arrEnumH es 0

/-- One iteration list of the `for...in` loop of `copyObjectDeep` over the
heap: clone each member value with `rec`, threading the counter.  `rec` is
the recursive call at the remaining fuel. -/
def copyFieldsWith (rec : HVal → Nat → Option (List (Nat × HNode) × HVal × Nat)) :
    List (String × HVal) → Nat → Option (List (Nat × HNode) × List (String × HVal) × Nat)
  | [], c => some ([], [], c)
  | (k, v) :: t, c =>
    match rec v c with
    | none => none
    | some (o1, v', c1) =>
      match copyFieldsWith rec t c1 with
      | none => none
      | some (o2, t', c2) => some (o1 ++ o2, (k, v') :: t', c2)

/-- `copyObjectDeep` over the heap, with fuel bounding the recursion
depth: `none` means the call nests deeper than `fuel`, so an answer of
`none` at every fuel is non-termination of the source recursion.  A
reference is cloned by allocating a fresh mapping node (always `nobj`,
the `{}` literal) at identity `c` holding the recursive clones of the
`for...in` members; any other value is returned as-is with no
allocation.  The input heap `h` is only read: the returned list holds the
newly allocated nodes. -/
def copyDeepH : Nat → Heap → HVal → Nat → Option (List (Nat × HNode) × HVal × Nat)
  | 0, _, _, _ => none
  | fuel + 1, h, v, c =>
    match v with
    | .href r =>
      match lookupH h r with
      | none => none
      | some node =>
        match copyFieldsWith (copyDeepH fuel h) (nodeEnum node) (c + 1) with
        | none => none
        | some (out, fs', c') => some (out ++ [(c, .nobj fs')], .href c, c')
    | _ => some ([], v, c)



/-- Abstract syntax of the JSON text produced by `JSON.stringify` and
consumed by `JSON.parse`.  The concrete text is a bijective rendering of
these trees (object member order kept), so the round trip through the
string is modelled as the round trip through `Jv`. -/
inductive Jv : Type where
  | jnull : Jv
  | jbool (b : Bool) : Jv
  | jnum (n : Int) : Jv
  | jstr (s : String) : Jv
  | jobj (fields : List (String × Jv)) : Jv
  | jarr (elems : List Jv) : Jv

/-- Result of `JSON.stringify`: the cycle `TypeError` (`cyc`), the value
`undefined` (`undef`: a top-level Callable, symbol or `undefined`), or a
JSON text (`val`). -/
inductive SResult : Type where
  | cyc : SResult
  | undef : SResult
  | val (j : Jv) : SResult

/-- Serialization of the fields of a mapping with `rec`: a member whose
serialization is `undefined` is omitted; the cycle error propagates. -/
def strFieldsWith (rec : HVal → Option SResult) :
    List (String × HVal) → Option (Except Unit (List (String × Jv)))
  | [] => some (.ok [])
  | (k, v) :: t =>
    match rec v with
    | none => none
    | some .cyc => some (.error ())
    | some .undef => strFieldsWith rec t
    | some (.val j) =>
      match strFieldsWith rec t with
      | none => none
      | some (.error e) => some (.error e)
      | some (.ok fs) => some (.ok ((k, j) :: fs))

/-- Serialization of the elements of a sequence with `rec`: a slot whose
serialization is `undefined` becomes the `null` literal; the cycle error
propagates. -/
def strElemsWith (rec : HVal → Option SResult) :
    List HVal → Option (Except Unit (List Jv))
  | [] => some (.ok [])
  | v :: t =>
    match rec v with
    | none => none
    | some .cyc => some (.error ())
    | some .undef =>
      match strElemsWith rec t with
      | none => none
      | some (.error e) => some (.error e)
      | some (.ok es) => some (.ok (Jv.jnull :: es))
    | some (.val j) =>
      match strElemsWith rec t with
      | none => none
      | some (.error e) => some (.error e)
      | some (.ok es) => some (.ok (j :: es))

/-- `JSON.stringify` over the heap (no replacer, no `toJSON`), with fuel
bounding the recursion depth (`none` = fuel exhausted, an artifact of the
embedding: the real serializer's depth is bounded by the ancestor check).
`anc` is the stack of identities being serialized: revisiting one raises
the circular-structure `TypeError` (`cyc`).  `undefined`, Callables and
symbolic atoms serialize to `undefined`; mappings serialize member by
member, omitting `undefined` results; sequences substitute `null`. -/
def stringifyH : Nat → Heap → List Nat → HVal → Option SResult
  | 0, _, _, _ => none
  | fuel + 1, h, anc, v =>
    match v with
    | .hnull => some (.val .jnull)
    | .hbool b => some (.val (.jbool b))
    | .hnum n => some (.val (.jnum n))
    | .hstr s => some (.val (.jstr s))
    | .hundef => some .undef
    | .hsym _ => some .undef
    | .hfun _ => some .undef
    | .href r =>
      if r ∈ anc then some .cyc
      else
        match lookupH h r with
        | none => none
        | some (.nobj fs) =>
          match strFieldsWith (stringifyH fuel h (r :: anc)) fs with
          | none => none
          | some (.error _) => some .cyc
          | some (.ok fs') => some (.val (.jobj fs'))
        | some (.narr es) =>
          match strElemsWith (stringifyH fuel h (r :: anc)) es with
          | none => none
          | some (.error _) => some .cyc
          | some (.ok es') => some (.val (.jarr es'))

mutual

/-- `JSON.parse` of a JSON tree: build fresh heap nodes (allocated from
counter `c`), returning the new nodes, the parsed value and the next
counter.  Arrays stay arrays; this decoder never fails. -/
def jsonParse : Jv → Nat → List (Nat × HNode) × HVal × Nat
  | .jnull, c => ([], .hnull, c)
  | .jbool b, c => ([], .hbool b, c)
  | .jnum n, c => ([], .hnum n, c)
  | .jstr s, c => ([], .hstr s, c)
  | .jobj fs, c =>
    let r := parseFields fs (c + 1)
    (r.1 ++ [(c, .nobj r.2.1)], .href c, r.2.2)
  | .jarr es, c =>
    let r := parseElems es (c + 1)
    (r.1 ++ [(c, .narr r.2.1)], .href c, r.2.2)

def parseFields : List (String × Jv) → Nat → List (Nat × HNode) × List (String × HVal) × Nat
  | [], c => ([], [], c)
  | (k, j) :: t, c =>
    let r1 := jsonParse j c
    let r2 := parseFields t r1.2.2
    (r1.1 ++ r2.1, (k, r1.2.1) :: r2.2.1, r2.2.2)

def parseElems : List Jv → Nat → List (Nat × HNode) × List HVal × Nat
  | [], c => ([], [], c)
  | j :: t, c =>
    let r1 := jsonParse j c
    let r2 := parseElems t r1.2.2
    (r1.1 ++ r2.1, r1.2.1 :: r2.2.1, r2.2.2)

end

/-- Result of `copyObjectViaJSON`: the EncodingError (cycle `TypeError`
from `JSON.stringify`), the decode error (`SyntaxError` from
`JSON.parse(undefined)` when serialization produced no text), or the
fresh copy. -/
inductive JsonCopyResult : Type where
  | encodingError : JsonCopyResult
  | decodeError : JsonCopyResult
  | ok (alloc : List (Nat × HNode)) (v : HVal) (c : Nat) : JsonCopyResult

/-- `copyObjectViaJSON` from the source:
`return JSON.parse(JSON.stringify(target));`, over the heap, with the
serializer's fuel. -/
def copyObjectViaJSON (fuel : Nat) (h : Heap) (v : HVal) (c : Nat) :
    Option JsonCopyResult :=
  match stringifyH fuel h [] v with
  | none => none
  | some .cyc => some .encodingError
  | some .undef => some .decodeError
  | some (.val j) =>
    some (.ok (jsonParse j c).1 (jsonParse j c).2.1 (jsonParse j c).2.2)


/-- Whether a heap value is a reference (a Composite). -/
def isRefH : HVal → Bool
  | .href _ => true
  | _ => false

/-- The reference of `v`, if any, resolves in `h`. -/
def hvalOKH (h : Heap) (v : HVal) : Prop :=
  ∀ r, v = .href r → (lookupH h r).isSome = true

/-- A rank certificate of acyclicity: along every member edge of every
node the rank strictly decreases (such a function exists exactly when no
reference chain returns to its origin), and every member reference
resolves. -/
def heapEdgesOK (h : Heap) (rank : Nat → Nat) : Prop :=
  ∀ r node, lookupH h r = some node → ∀ kv ∈ nodeEnum node, ∀ r',
    kv.2 = HVal.href r' → rank r' < rank r ∧ (lookupH h r').isSome = true

/-- Recursion depth needed below a value: one more than its node's rank. -/
def rankVH (rank : Nat → Nat) : HVal → Nat
  | .href r => rank r + 1
  | _ => 0

theorem copyFieldsWith_total (h : Heap) (rank : Nat → Nat) (f : Nat)
    (ih : ∀ v c, rankVH rank v < f → hvalOKH h v →
      ∃ res, copyDeepH f h v c = some res) :
    ∀ (kvs : List (String × HVal)),
      (∀ kv ∈ kvs, rankVH rank kv.2 < f ∧ hvalOKH h kv.2) → ∀ c,
      ∃ res, copyFieldsWith (copyDeepH f h) kvs c = some res := by
  intro kvs
  induction kvs with
  | nil => intro _ c; exact ⟨_, rfl⟩
  | cons kv t iht =>
    intro hb c
    obtain ⟨k, v⟩ := kv
    obtain ⟨hrk, hok⟩ := hb (k, v) (List.mem_cons_self _ _)
    obtain ⟨⟨o1, v', c1⟩, h1⟩ := ih v c hrk hok
    obtain ⟨res2, h2⟩ := iht (fun kv hm => hb kv (List.mem_cons_of_mem _ hm)) c1
    obtain ⟨o2, t', c2⟩ := res2
    exact ⟨(o1 ++ o2, (k, v') :: t', c2), by simp [copyFieldsWith, h1, h2]⟩

theorem copyDeepH_total (h : Heap) (rank : Nat → Nat)
    (hedges : heapEdgesOK h rank) :
    ∀ (fuel : Nat) (v : HVal) (c : Nat), rankVH rank v < fuel → hvalOKH h v →
      ∃ res, copyDeepH fuel h v c = some res := by
  intro fuel
  induction fuel with
  | zero => intro v c hr; omega
  | succ f ih =>
    intro v c hr hok
    cases v with
    | href r =>
      have hlook : (lookupH h r).isSome = true := hok r rfl
      obtain ⟨node, hnode⟩ := Option.isSome_iff_exists.mp hlook
      have hrankr : rank r < f := by
        simp only [rankVH] at hr; omega
      have hchildren : ∀ kv ∈ nodeEnum node,
          rankVH rank kv.2 < f ∧ hvalOKH h kv.2 := by
        intro kv hkv
        obtain ⟨kk, vv⟩ := kv
        cases vv with
        | href r' =>
          have hed := hedges r node hnode (kk, HVal.href r') hkv r' rfl
          refine ⟨?_, ?_⟩
          · show rank r' + 1 < f
            omega
          · intro r'' hr''
            obtain rfl : r'' = r' := by
              have h2 : HVal.href r' = HVal.href r'' := hr''
              injection h2 with h3
              exact h3.symm
            exact hed.2
        | hundef => exact ⟨by show (0:Nat) < f; omega, fun r'' h'' => by cases h''⟩
        | hnull => exact ⟨by show (0:Nat) < f; omega, fun r'' h'' => by cases h''⟩
        | hbool b => exact ⟨by show (0:Nat) < f; omega, fun r'' h'' => by cases h''⟩
        | hnum n => exact ⟨by show (0:Nat) < f; omega, fun r'' h'' => by cases h''⟩
        | hstr s => exact ⟨by show (0:Nat) < f; omega, fun r'' h'' => by cases h''⟩
        | hsym s => exact ⟨by show (0:Nat) < f; omega, fun r'' h'' => by cases h''⟩
        | hfun i => exact ⟨by show (0:Nat) < f; omega, fun r'' h'' => by cases h''⟩
      obtain ⟨res, hres⟩ :=
        copyFieldsWith_total h rank f ih (nodeEnum node) hchildren (c + 1)
      obtain ⟨out, fs', c'⟩ := res
      exact ⟨(out ++ [(c, HNode.nobj fs')], HVal.href c, c'),
        by simp [copyDeepH, hnode, hres]⟩
    | hundef => exact ⟨_, rfl⟩
    | hnull => exact ⟨_, rfl⟩
    | hbool b => exact ⟨_, rfl⟩
    | hnum n => exact ⟨_, rfl⟩
    | hstr s => exact ⟨_, rfl⟩
    | hsym s => exact ⟨_, rfl⟩
    | hfun i => exact ⟨_, rfl⟩


/-- Reachability of node `r` from value `v` along member edges: `v` is the
reference `r` itself, or a member of the referenced node reaches `r`. -/
inductive ReachH (h : Heap) : HVal → Nat → Prop where
  | here {r : Nat} : ReachH h (.href r) r
  | step {r r' : Nat} {node : HNode} {kv : String × HVal} :
      lookupH h r = some node → kv ∈ nodeEnum node → ReachH h kv.2 r' →
      ReachH h (.href r) r'

/-- Node `r` lies on a cycle: some member of its node reaches `r` back. -/
def selfLoopH (h : Heap) (r : Nat) : Prop :=
  ∃ node kv, lookupH h r = some node ∧ kv ∈ nodeEnum node ∧ ReachH h kv.2 r

/-- The value contains a cyclic reference: some node reachable from it
lies on a cycle. -/
def CyclicFrom (h : Heap) (v : HVal) : Prop :=
  ∃ r, ReachH h v r ∧ selfLoopH h r

theorem copyFieldsWith_none (rec : HVal → Nat → Option (List (Nat × HNode) × HVal × Nat)) :
    ∀ (kvs : List (String × HVal)) (kv : String × HVal), kv ∈ kvs →
      (∀ c, rec kv.2 c = none) → ∀ c, copyFieldsWith rec kvs c = none := by
  intro kvs
  induction kvs with
  | nil => intro kv hm; simp at hm
  | cons a t ih =>
    intro kv hm hnone c
    obtain ⟨k0, v0⟩ := a
    rcases List.mem_cons.mp hm with hm | hm
    · subst hm
      simp [copyFieldsWith, hnone c]
    · cases hrec : rec v0 c with
      | none => simp [copyFieldsWith, hrec]
      | some res =>
        obtain ⟨o1, v', c1⟩ := res
        simp [copyFieldsWith, hrec, ih kv hm hnone c1]

/-- On any input containing a cyclic reference the heap deep copy runs out
of every fuel: the source recursion does not terminate. -/
theorem copyDeepH_cyclic : ∀ (fuel : Nat) (h : Heap) (v : HVal),
    CyclicFrom h v → ∀ c, copyDeepH fuel h v c = none := by
  intro fuel
  induction fuel with
  | zero => intro h v _ c; rfl
  | succ f ih =>
    intro h v hcyc c
    obtain ⟨r, hreach, hloop⟩ := hcyc
    cases hreach with
    | here =>
      obtain ⟨node, kv, hlook, hkv, hr⟩ := hloop
      have hchild : ∀ c', copyDeepH f h kv.2 c' = none :=
        fun c' => ih h kv.2 ⟨r, hr, node, kv, hlook, hkv, hr⟩ c'
      have hfields := copyFieldsWith_none (copyDeepH f h) (nodeEnum node) kv hkv hchild
      simp [copyDeepH, hlook, hfields]
    | step hlook hkv hr =>
      have hchild : ∀ c', copyDeepH f h _ c' = none :=
        fun c' => ih h _ ⟨r, hr, hloop⟩ c'
      have hfields := copyFieldsWith_none (copyDeepH f h) _ _ hkv hchild
      simp [copyDeepH, hlook, hfields]

/-- C2: the DeepRecursive clone terminates on every acyclic input — given
any rank certificate of acyclicity, fuel one beyond the root's rank
suffices — bottoming out at Primitives and Callables, which are returned
as-is with no allocation; and no cycle detection is performed: on the
input containing a direct or transitive reference to itself the recursion
exceeds every fuel, i.e. it does not terminate. -/
theorem copyObjectDeep_terminates_iff_acyclic :
    (∀ (h : Heap) (v : HVal) (c fuel : Nat), isRefH v = false →
      copyDeepH (fuel + 1) h v c = some ([], v, c)) ∧
    (∀ (h : Heap) (rank : Nat → Nat), heapEdgesOK h rank →
      ∀ (v : HVal) (c : Nat), hvalOKH h v →
        ∃ res, copyDeepH (rankVH rank v + 1) h v c = some res) ∧
    (∀ (h : Heap) (v : HVal), CyclicFrom h v →
      ∀ fuel c, copyDeepH fuel h v c = none) := by
  refine ⟨?_, ?_, fun h v hc fuel c => copyDeepH_cyclic fuel h v hc c⟩
  · intro h v c fuel hv
    cases v <;> first | rfl | simp [isRefH] at hv
  · intro h rank hedges v c hok
    exact copyDeepH_total h rank hedges (rankVH rank v + 1) v c (Nat.lt_succ_self _) hok

theorem copyObjectDeep_terminates_iff_acyclic_witness :
    (∃ res, copyDeepH (rankVH (fun _ => 0) (HVal.href 1) + 1)
      [(1, HNode.nobj [("a", HVal.hnum 3)])] (HVal.href 1) 5 = some res) ∧
    (∀ fuel c, copyDeepH fuel [(0, HNode.nobj [("self", HVal.href 0)])]
      (HVal.href 0) c = none) := by
  constructor
  · refine copyObjectDeep_terminates_iff_acyclic.2.1
      [(1, HNode.nobj [("a", HVal.hnum 3)])] (fun _ => 0) ?_ (HVal.href 1) 5 ?_
    · intro r node hr kv hkv r' href
      by_cases h1 : (1 : Nat) = r
      · subst h1
        simp only [lookupH, if_pos rfl] at hr
        obtain rfl : HNode.nobj [("a", HVal.hnum 3)] = node := by
          injection hr
        simp only [nodeEnum, List.mem_singleton] at hkv
        subst hkv
        cases href
      · simp [lookupH, h1] at hr
    · intro r hr
      obtain rfl : r = 1 := by injection hr with h; exact h.symm
      rfl
  · intro fuel c
    refine copyObjectDeep_terminates_iff_acyclic.2.2 _ _
      ⟨0, ReachH.here, HNode.nobj [("self", HVal.href 0)], ("self", HVal.href 0),
        by rfl, List.mem_cons_self _ _, ReachH.here⟩ fuel c


theorem mem_arrEnumH {es : List HVal} {i : Nat} {kv : String × HVal}
    (h : kv ∈ arrEnumH es i) : kv.2 ∈ es := by
  induction es generalizing i with
  | nil => simp [arrEnumH] at h
  | cons v t ih =>
    simp only [arrEnumH, List.mem_cons] at h
    rcases h with h | h
    · subst h; exact List.mem_cons_self _ _
    · exact List.mem_cons_of_mem _ (ih h)

theorem mem_arrEnumH_of_mem {es : List HVal} {v : HVal} (h : v ∈ es) :
    ∀ i, ∃ k, (k, v) ∈ arrEnumH es i := by
  induction es with
  | nil => simp at h
  | cons a t ih =>
    intro i
    rcases List.mem_cons.mp h with h | h
    · subst h; exact ⟨toString i, List.mem_cons_self _ _⟩
    · obtain ⟨k, hk⟩ := ih h (i + 1)
      exact ⟨k, List.mem_cons_of_mem _ hk⟩

/-- A serializer result that is neither exhausted fuel nor the cycle
error. -/
def goodS : Option SResult → Prop
  | none => False
  | some .cyc => False
  | some .undef => True
  | some (.val _) => True

def goodF : Option (Except Unit (List (String × Jv))) → Prop
  | some (.ok _) => True
  | _ => False

def goodE : Option (Except Unit (List Jv)) → Prop
  | some (.ok _) => True
  | _ => False

theorem strFieldsWith_good (rec : HVal → Option SResult) :
    ∀ fs, goodF (strFieldsWith rec fs) → ∀ kv ∈ fs, goodS (rec kv.2) := by
  intro fs
  induction fs with
  | nil => intro _ kv hm; simp at hm
  | cons a t ih =>
    intro hgood kv hm
    obtain ⟨k0, v0⟩ := a
    cases hrec : rec v0 with
    | none => simp [strFieldsWith, hrec, goodF] at hgood
    | some sr =>
      cases sr with
      | cyc => simp [strFieldsWith, hrec, goodF] at hgood
      | undef =>
        rcases List.mem_cons.mp hm with hm | hm
        · subst hm; simp [goodS, hrec]
        · exact ih (by simpa [strFieldsWith, hrec] using hgood) kv hm
      | val j =>
        rcases List.mem_cons.mp hm with hm | hm
        · subst hm; simp [goodS, hrec]
        · cases ht : strFieldsWith rec t with
          | none => simp [strFieldsWith, hrec, ht, goodF] at hgood
          | some res =>
            cases res with
            | error e => simp [strFieldsWith, hrec, ht, goodF] at hgood
            | ok fs2 => exact ih (by simp [ht, goodF]) kv hm

theorem strElemsWith_good (rec : HVal → Option SResult) :
    ∀ es, goodE (strElemsWith rec es) → ∀ v ∈ es, goodS (rec v) := by
  intro es
  induction es with
  | nil => intro _ v hm; simp at hm
  | cons a t ih =>
    intro hgood v hm
    cases hrec : rec a with
    | none => simp [strElemsWith, hrec, goodE] at hgood
    | some sr =>
      cases sr with
      | cyc => simp [strElemsWith, hrec, goodE] at hgood
      | undef =>
        rcases List.mem_cons.mp hm with hm | hm
        · subst hm; simp [goodS, hrec]
        · cases ht : strElemsWith rec t with
          | none => simp [strElemsWith, hrec, ht, goodE] at hgood
          | some res =>
            cases res with
            | error e => simp [strElemsWith, hrec, ht, goodE] at hgood
            | ok es2 => exact ih (by simp [ht, goodE]) v hm
      | val j =>
        rcases List.mem_cons.mp hm with hm | hm
        · subst hm; simp [goodS, hrec]
        · cases ht : strElemsWith rec t with
          | none => simp [strElemsWith, hrec, ht, goodE] at hgood
          | some res =>
            cases res with
            | error e => simp [strElemsWith, hrec, ht, goodE] at hgood
            | ok es2 => exact ih (by simp [ht, goodE]) v hm

/-- Inversion of a good serializer answer on a reference: the fuel was
positive, the reference is not an ancestor, its node exists, and every
member serialized well one level deeper. -/
theorem stringifyH_ref_good {h : Heap} {fuel : Nat} {anc : List Nat} {r : Nat}
    (hgood : goodS (stringifyH fuel h anc (.href r))) :
    ∃ f node, fuel = f + 1 ∧ r ∉ anc ∧ lookupH h r = some node ∧
      ∀ kv ∈ nodeEnum node, goodS (stringifyH f h (r :: anc) kv.2) := by
  cases fuel with
  | zero => simp [stringifyH, goodS] at hgood
  | succ f =>
    by_cases hmem : r ∈ anc
    · simp [stringifyH, hmem, goodS] at hgood
    · cases hlook : lookupH h r with
      | none => simp [stringifyH, hmem, hlook, goodS] at hgood
      | some node =>
        refine ⟨f, node, rfl, hmem, rfl, ?_⟩
        cases node with
        | nobj fs =>
          intro kv hkv
          cases hsf : strFieldsWith (stringifyH f h (r :: anc)) fs with
          | none => simp [stringifyH, hmem, hlook, hsf, goodS] at hgood
          | some res =>
            cases res with
            | error e => simp [stringifyH, hmem, hlook, hsf, goodS] at hgood
            | ok fs' => exact strFieldsWith_good _ fs (by simp [hsf, goodF]) kv hkv
        | narr es =>
          intro kv hkv
          have hv : kv.2 ∈ es := mem_arrEnumH hkv
          cases hse : strElemsWith (stringifyH f h (r :: anc)) es with
          | none => simp [stringifyH, hmem, hlook, hse, goodS] at hgood
          | some res =>
            cases res with
            | error e => simp [stringifyH, hmem, hlook, hse, goodS] at hgood
            | ok es' => exact strElemsWith_good _ es (by simp [hse, goodE]) kv.2 hv

/-- A good serializer answer means no reachable node is on the ancestor
stack (the serializer follows every member edge). -/
theorem stringifyH_good_notin_anc {h : Heap} :
    ∀ {v : HVal} {r : Nat}, ReachH h v r → ∀ (fuel : Nat) (anc : List Nat),
      goodS (stringifyH fuel h anc v) → r ∉ anc := by
  intro v r hreach
  induction hreach with
  | here =>
    intro fuel anc hgood
    obtain ⟨f, node, rfl, hmem, _, _⟩ := stringifyH_ref_good hgood
    exact hmem
  | @step r0 r' node kv hlook hkv hr ih =>
    intro fuel anc hgood
    obtain ⟨f, node', hf, hmem, hlook', hchildren⟩ := stringifyH_ref_good hgood
    obtain rfl : node' = node := by
      rw [hlook] at hlook'
      injection hlook' with hh
      exact hh.symm
    have hnot := ih f (r0 :: anc) (hchildren kv hkv)
    exact fun hmem2 => hnot (List.mem_cons_of_mem _ hmem2)

/-- A good serializer answer means no reachable node lies on a cycle: the
ancestor check would have fired on the cycle. -/
theorem stringifyH_good_no_selfLoop {h : Heap} :
    ∀ {v : HVal} {r : Nat}, ReachH h v r → ∀ (fuel : Nat) (anc : List Nat),
      goodS (stringifyH fuel h anc v) → ¬ selfLoopH h r := by
  intro v r hreach
  induction hreach with
  | @here r =>
    intro fuel anc hgood hloop
    obtain ⟨f, node, rfl, hmem, hlook, hchildren⟩ := stringifyH_ref_good hgood
    obtain ⟨node', kv, hlook', hkv, hr⟩ := hloop
    obtain rfl : node' = node := by
      rw [hlook] at hlook'
      injection hlook' with hh
      exact hh.symm
    exact stringifyH_good_notin_anc hr f (r :: anc) (hchildren kv hkv)
      (List.mem_cons_self _ _)
  | @step r0 r' node kv hlook hkv hr ih =>
    intro fuel anc hgood hloop
    obtain ⟨f, node', hf, hmem, hlook', hchildren⟩ := stringifyH_ref_good hgood
    obtain rfl : node' = node := by
      rw [hlook] at hlook'
      injection hlook' with hh
      exact hh.symm
    exact ih f (r0 :: anc) (hchildren kv hkv) hloop


theorem strFieldsWith_no_cyc (rec : HVal → Option SResult) :
    ∀ fs, (∀ kv ∈ fs, rec kv.2 ≠ some .cyc) →
      strFieldsWith rec fs ≠ some (.error ()) := by
  intro fs
  induction fs with
  | nil => intro _; simp [strFieldsWith]
  | cons a t ih =>
    intro hc
    obtain ⟨k0, v0⟩ := a
    have hhead : rec v0 ≠ some .cyc := hc (k0, v0) (List.mem_cons_self _ _)
    have htail := ih (fun kv hm => hc kv (List.mem_cons_of_mem _ hm))
    cases hrec : rec v0 with
    | none => simp [strFieldsWith, hrec]
    | some sr =>
      cases sr with
      | cyc => exact absurd hrec hhead
      | undef => simpa [strFieldsWith, hrec] using htail
      | val j =>
        cases ht : strFieldsWith rec t with
        | none => simp [strFieldsWith, hrec, ht]
        | some res =>
          cases res with
          | error e => cases e; exact absurd ht htail
          | ok fs2 => simp [strFieldsWith, hrec, ht]

theorem strElemsWith_no_cyc (rec : HVal → Option SResult) :
    ∀ es, (∀ v ∈ es, rec v ≠ some .cyc) →
      strElemsWith rec es ≠ some (.error ()) := by
  intro es
  induction es with
  | nil => intro _; simp [strElemsWith]
  | cons a t ih =>
    intro hc
    have hhead : rec a ≠ some .cyc := hc a (List.mem_cons_self _ _)
    have htail := ih (fun v hm => hc v (List.mem_cons_of_mem _ hm))
    cases hrec : rec a with
    | none => simp [strElemsWith, hrec]
    | some sr =>
      cases sr with
      | cyc => exact absurd hrec hhead
      | undef =>
        cases ht : strElemsWith rec t with
        | none => simp [strElemsWith, hrec, ht]
        | some res =>
          cases res with
          | error e => cases e; exact absurd ht htail
          | ok es2 => simp [strElemsWith, hrec, ht]
      | val j =>
        cases ht : strElemsWith rec t with
        | none => simp [strElemsWith, hrec, ht]
        | some res =>
          cases res with
          | error e => cases e; exact absurd ht htail
          | ok es2 => simp [strElemsWith, hrec, ht]

/-- On a rank-certified (acyclic) heap the serializer never reports the
cycle error, whatever the fuel, provided every ancestor outranks the
current reference. -/
theorem stringifyH_no_cyc (h : Heap) (rank : Nat → Nat)
    (hedges : heapEdgesOK h rank) :
    ∀ (fuel : Nat) (anc : List Nat) (v : HVal),
      (∀ a ∈ anc, ∀ r, v = .href r → rank r < rank a) →
      stringifyH fuel h anc v ≠ some .cyc := by
  intro fuel
  induction fuel with
  | zero => intro anc v _; simp [stringifyH]
  | succ f ih =>
    intro anc v hanc
    cases v with
    | href r =>
      have hmem : r ∉ anc := fun hm => absurd (hanc r hm r rfl) (lt_irrefl _)
      cases hlook : lookupH h r with
      | none => simp [stringifyH, hmem, hlook]
      | some node =>
        have hchild : ∀ kv ∈ nodeEnum node,
            stringifyH f h (r :: anc) kv.2 ≠ some .cyc := by
          intro kv hkv
          apply ih
          intro a ha r' hval
          have hlt := (hedges r node hlook kv hkv r' hval).1
          rcases List.mem_cons.mp ha with ha | ha
          · subst ha; exact hlt
          · exact lt_trans hlt (hanc a ha r rfl)
        cases node with
        | nobj fs =>
          have hsf := strFieldsWith_no_cyc _ fs hchild
          cases hsf2 : strFieldsWith (stringifyH f h (r :: anc)) fs with
          | none => simp [stringifyH, hmem, hlook, hsf2]
          | some res =>
            cases res with
            | error e => cases e; exact absurd hsf2 hsf
            | ok fs' => simp [stringifyH, hmem, hlook, hsf2]
        | narr es =>
          have hchild' : ∀ v ∈ es, stringifyH f h (r :: anc) v ≠ some .cyc := by
            intro v hv
            obtain ⟨k, hk⟩ := mem_arrEnumH_of_mem hv 0
            exact hchild (k, v) hk
          have hse := strElemsWith_no_cyc _ es hchild'
          cases hse2 : strElemsWith (stringifyH f h (r :: anc)) es with
          | none => simp [stringifyH, hmem, hlook, hse2]
          | some res =>
            cases res with
            | error e => cases e; exact absurd hse2 hse
            | ok es' => simp [stringifyH, hmem, hlook, hse2]
    | hundef => simp [stringifyH]
    | hnull => simp [stringifyH]
    | hbool b => simp [stringifyH]
    | hnum n => simp [stringifyH]
    | hstr s => simp [stringifyH]
    | hsym s => simp [stringifyH]
    | hfun i => simp [stringifyH]


/-- Every member reference of every node resolves. -/
def heapClosedH (h : Heap) : Prop :=
  ∀ r node, lookupH h r = some node → ∀ kv ∈ nodeEnum node, hvalOKH h kv.2

/-- How many heap identities are not yet on the ancestor stack: the
serializer's remaining possible depth. -/
def unvisited (h : Heap) (anc : List Nat) : Nat :=
  ((h.map Prod.fst).filter (fun r => r ∉ anc)).length

theorem lookupH_mem_ids {h : Heap} {r : Nat} {node : HNode}
    (hl : lookupH h r = some node) : r ∈ h.map Prod.fst := by
  induction h with
  | nil => simp [lookupH] at hl
  | cons a t ih =>
    obtain ⟨r0, n0⟩ := a
    by_cases h0 : r0 = r
    · subst h0; exact List.mem_cons_self _ _
    · simp only [lookupH, if_neg h0] at hl
      exact List.mem_cons_of_mem _ (ih hl)

theorem filter_imp_length {l : List Nat} {p q : Nat → Bool}
    (himp : ∀ x, q x = true → p x = true) :
    (l.filter q).length ≤ (l.filter p).length := by
  induction l with
  | nil => simp
  | cons a t ih =>
    by_cases hq : q a = true
    · rw [List.filter_cons_of_pos hq, List.filter_cons_of_pos (himp a hq)]
      simpa using ih
    · rw [List.filter_cons_of_neg (by simpa using hq)]
      by_cases hp : p a = true
      · rw [List.filter_cons_of_pos hp]
        exact le_trans ih (by simp)
      · rw [List.filter_cons_of_neg (by simpa using hp)]
        exact ih

theorem filter_push_length {r : Nat} {anc : List Nat} (hr : r ∉ anc) :
    ∀ {l : List Nat}, r ∈ l →
      (l.filter (fun x => x ∉ r :: anc)).length
        < (l.filter (fun x => x ∉ anc)).length := by
  have himp : ∀ x : Nat, (decide (x ∉ r :: anc)) = true → (decide (x ∉ anc)) = true := by
    intro x hx
    simp only [decide_eq_true_eq] at hx ⊢
    exact fun hmem => hx (List.mem_cons_of_mem _ hmem)
  intro l
  induction l with
  | nil => intro hrl; simp at hrl
  | cons a t ih =>
    intro hrl
    rcases List.mem_cons.mp hrl with ha | ha
    · subst ha
      rw [List.filter_cons_of_neg (by simp), List.filter_cons_of_pos (by simpa using hr)]
      simp only [List.length_cons]
      exact Nat.lt_succ_of_le (filter_imp_length himp)
    · by_cases haq : a ∈ r :: anc
      · rw [List.filter_cons_of_neg
          (by simp only [decide_eq_true_eq]; exact not_not_intro haq)]
        rcases List.mem_cons.mp haq with h1 | h1
        · subst h1
          rw [List.filter_cons_of_pos (by simpa using hr)]
          simp only [List.length_cons]
          exact Nat.lt_succ_of_le (filter_imp_length himp)
        · rw [List.filter_cons_of_neg
            (by simp only [decide_eq_true_eq]; exact not_not_intro h1)]
          exact ih ha
      · have ha2 : a ∉ anc := fun hm => haq (List.mem_cons_of_mem _ hm)
        rw [List.filter_cons_of_pos (by simpa using haq),
          List.filter_cons_of_pos (by simpa using ha2)]
        simpa using ih ha

theorem unvisited_push {h : Heap} {r : Nat} {anc : List Nat}
    (hrl : r ∈ h.map Prod.fst) (hr : r ∉ anc) :
    unvisited h (r :: anc) < unvisited h anc :=
  filter_push_length hr hrl

theorem strFieldsWith_some (rec : HVal → Option SResult) :
    ∀ fs, (∀ kv ∈ fs, rec kv.2 ≠ none) → strFieldsWith rec fs ≠ none := by
  intro fs
  induction fs with
  | nil => intro _; simp [strFieldsWith]
  | cons a t ih =>
    intro hc
    obtain ⟨k0, v0⟩ := a
    have hhead : rec v0 ≠ none := hc (k0, v0) (List.mem_cons_self _ _)
    have htail := ih (fun kv hm => hc kv (List.mem_cons_of_mem _ hm))
    cases hrec : rec v0 with
    | none => exact absurd hrec hhead
    | some sr =>
      cases sr with
      | cyc => simp [strFieldsWith, hrec]
      | undef => simpa [strFieldsWith, hrec] using htail
      | val j =>
        cases ht : strFieldsWith rec t with
        | none => exact absurd ht htail
        | some res =>
          cases res with
          | error e => simp [strFieldsWith, hrec, ht]
          | ok fs2 => simp [strFieldsWith, hrec, ht]

theorem strElemsWith_some (rec : HVal → Option SResult) :
    ∀ es, (∀ v ∈ es, rec v ≠ none) → strElemsWith rec es ≠ none := by
  intro es
  induction es with
  | nil => intro _; simp [strElemsWith]
  | cons a t ih =>
    intro hc
    have hhead : rec a ≠ none := hc a (List.mem_cons_self _ _)
    have htail := ih (fun v hm => hc v (List.mem_cons_of_mem _ hm))
    cases hrec : rec a with
    | none => exact absurd hrec hhead
    | some sr =>
      cases sr with
      | cyc => simp [strElemsWith, hrec]
      | undef =>
        cases ht : strElemsWith rec t with
        | none => exact absurd ht htail
        | some res =>
          cases res with
          | error e => simp [strElemsWith, hrec, ht]
          | ok es2 => simp [strElemsWith, hrec, ht]
      | val j =>
        cases ht : strElemsWith rec t with
        | none => exact absurd ht htail
        | some res =>
          cases res with
          | error e => simp [strElemsWith, hrec, ht]
          | ok es2 => simp [strElemsWith, hrec, ht]

/-- On a closed heap the serializer always answers — possibly with the
cycle error — once the fuel exceeds the number of unvisited identities:
its recursion depth is bounded by the ancestor check. -/
theorem stringifyH_total (h : Heap) (hclosed : heapClosedH h) :
    ∀ (fuel : Nat) (anc : List Nat) (v : HVal), unvisited h anc < fuel →
      hvalOKH h v → stringifyH fuel h anc v ≠ none := by
  intro fuel
  induction fuel with
  | zero => intro anc v h0; omega
  | succ f ih =>
    intro anc v hfuel hok
    cases v with
    | href r =>
      by_cases hmem : r ∈ anc
      · simp [stringifyH, hmem]
      · obtain ⟨node, hlook⟩ := Option.isSome_iff_exists.mp (hok r rfl)
        have hrl : r ∈ h.map Prod.fst := lookupH_mem_ids hlook
        have hcount := unvisited_push hrl hmem
        have hfuel' : unvisited h (r :: anc) < f := by omega
        have hchild : ∀ kv ∈ nodeEnum node,
            stringifyH f h (r :: anc) kv.2 ≠ none :=
          fun kv hkv => ih (r :: anc) kv.2 hfuel' (hclosed r node hlook kv hkv)
        cases node with
        | nobj fs =>
          have hsf := strFieldsWith_some _ fs hchild
          cases hsf2 : strFieldsWith (stringifyH f h (r :: anc)) fs with
          | none => exact absurd hsf2 hsf
          | some res =>
            cases res with
            | error e => simp [stringifyH, hmem, hlook, hsf2]
            | ok fs' => simp [stringifyH, hmem, hlook, hsf2]
        | narr es =>
          have hchild' : ∀ v ∈ es, stringifyH f h (r :: anc) v ≠ none := by
            intro v hv
            obtain ⟨k, hk⟩ := mem_arrEnumH_of_mem hv 0
            exact hchild (k, v) hk
          have hse := strElemsWith_some _ es hchild'
          cases hse2 : strElemsWith (stringifyH f h (r :: anc)) es with
          | none => exact absurd hse2 hse
          | some res =>
            cases res with
            | error e => simp [stringifyH, hmem, hlook, hse2]
            | ok es' => simp [stringifyH, hmem, hlook, hse2]
    | hundef => simp [stringifyH]
    | hnull => simp [stringifyH]
    | hbool b => simp [stringifyH]
    | hnum n => simp [stringifyH]
    | hstr s => simp [stringifyH]
    | hsym s => simp [stringifyH]
    | hfun i => simp [stringifyH]


/-- C3 counterexample: `copyObjectViaJSON` on the acyclic input `() => 1`
(a bare Callable, nothing reachable, no cycle) raises an error — the
serialization is `undefined`, and decoding it throws — so an error is
raised on an input with no cyclic reference, against the claimed `if and
only if`. -/
theorem copyObjectViaJSON_errors_on_acyclic_fun :
    copyObjectViaJSON 1 [] (HVal.hfun 7) 0 = some JsonCopyResult.decodeError ∧
    ∀ r, ¬ ReachH [] (HVal.hfun 7) r :=
  ⟨rfl, fun r hr => by cases hr⟩

/-- C3 amended: `copyObjectViaJSON` raises an error in exactly two cases.
On an input containing a cyclic reference the serializer's ancestor check
fires: the call never returns a copy nor the decode error at any fuel,
and — when the heap is closed — fuel beyond the heap size returns
exactly the EncodingError.  On a rank-certified acyclic input the
EncodingError never occurs: the call returns a result, and that result is
the decode error (the `SyntaxError` of decoding `undefined`) exactly when
serialization yielded no text, as for a top-level Callable. -/
theorem copyObjectViaJSON_error_conditions :
    (∀ (h : Heap) (v : HVal) (c : Nat), CyclicFrom h v →
      (∀ fuel al w c2, copyObjectViaJSON fuel h v c
        ≠ some (JsonCopyResult.ok al w c2)) ∧
      (∀ fuel, copyObjectViaJSON fuel h v c ≠ some JsonCopyResult.decodeError) ∧
      (heapClosedH h → hvalOKH h v →
        copyObjectViaJSON (unvisited h [] + 1) h v c
          = some JsonCopyResult.encodingError)) ∧
    (∀ (h : Heap) (rank : Nat → Nat), heapEdgesOK h rank →
      ∀ (v : HVal) (c : Nat), hvalOKH h v →
        ∃ res, copyObjectViaJSON (unvisited h [] + 1) h v c = some res ∧
          res ≠ JsonCopyResult.encodingError) ∧
    (∀ (fuel : Nat) (h : Heap) (v : HVal) (c : Nat),
      copyObjectViaJSON fuel h v c = some JsonCopyResult.decodeError ↔
        stringifyH fuel h [] v = some SResult.undef) := by
  refine ⟨?_, ?_, ?_⟩
  · intro h v c hcyc
    have hbad : ∀ fuel, ¬ goodS (stringifyH fuel h [] v) := by
      intro fuel hgood
      obtain ⟨r, hreach, hloop⟩ := hcyc
      exact stringifyH_good_no_selfLoop hreach fuel [] hgood hloop
    refine ⟨?_, ?_, ?_⟩
    · intro fuel al w c2 hEq
      cases hs : stringifyH fuel h [] v with
      | none => simp [copyObjectViaJSON, hs] at hEq
      | some sr =>
        cases sr with
        | cyc => simp [copyObjectViaJSON, hs] at hEq
        | undef => simp [copyObjectViaJSON, hs] at hEq
        | val j => exact hbad fuel (by simp [hs, goodS])
    · intro fuel hEq
      cases hs : stringifyH fuel h [] v with
      | none => simp [copyObjectViaJSON, hs] at hEq
      | some sr =>
        cases sr with
        | cyc => simp [copyObjectViaJSON, hs] at hEq
        | undef => exact hbad fuel (by simp [hs, goodS])
        | val j => simp [copyObjectViaJSON, hs] at hEq
    · intro hclosed hok
      have htot := stringifyH_total h hclosed (unvisited h [] + 1) [] v
        (Nat.lt_succ_self _) hok
      cases hs : stringifyH (unvisited h [] + 1) h [] v with
      | none => exact absurd hs htot
      | some sr =>
        cases sr with
        | cyc => simp [copyObjectViaJSON, hs]
        | undef =>
          exact absurd
            (show goodS (stringifyH (unvisited h [] + 1) h [] v) by
              simp [hs, goodS]) (hbad _)
        | val j =>
          exact absurd
            (show goodS (stringifyH (unvisited h [] + 1) h [] v) by
              simp [hs, goodS]) (hbad _)
  · intro h rank hedges v c hok
    have hclosed : heapClosedH h := by
      intro r node hl kv hkv r' hv
      exact (hedges r node hl kv hkv r' hv).2
    have htot := stringifyH_total h hclosed (unvisited h [] + 1) [] v
      (Nat.lt_succ_self _) hok
    have hnc := stringifyH_no_cyc h rank hedges (unvisited h [] + 1) [] v
      (by intro a ha; simp at ha)
    cases hs : stringifyH (unvisited h [] + 1) h [] v with
    | none => exact absurd hs htot
    | some sr =>
      cases sr with
      | cyc => exact absurd hs hnc
      | undef =>
        exact ⟨JsonCopyResult.decodeError, by simp [copyObjectViaJSON, hs], by simp⟩
      | val j =>
        refine ⟨JsonCopyResult.ok (jsonParse j c).1 (jsonParse j c).2.1
          (jsonParse j c).2.2, by simp [copyObjectViaJSON, hs], by simp⟩
  · intro fuel h v c
    constructor
    · intro hEq
      cases hs : stringifyH fuel h [] v with
      | none => simp [copyObjectViaJSON, hs] at hEq
      | some sr =>
        cases sr with
        | cyc => simp [copyObjectViaJSON, hs] at hEq
        | undef => rfl
        | val j => simp [copyObjectViaJSON, hs] at hEq
    · intro hs
      simp [copyObjectViaJSON, hs]

theorem copyObjectViaJSON_error_conditions_witness :
    copyObjectViaJSON (unvisited [(0, HNode.nobj [("self", HVal.href 0)])] [] + 1)
      [(0, HNode.nobj [("self", HVal.href 0)])] (HVal.href 0) 1
      = some JsonCopyResult.encodingError ∧
    (∃ res, copyObjectViaJSON (unvisited [(1, HNode.nobj [("a", HVal.hnum 3)])] [] + 1)
      [(1, HNode.nobj [("a", HVal.hnum 3)])] (HVal.href 1) 5 = some res ∧
      res ≠ JsonCopyResult.encodingError) := by
  constructor
  · refine (copyObjectViaJSON_error_conditions.1
      [(0, HNode.nobj [("self", HVal.href 0)])] (HVal.href 0) 1
      ⟨0, ReachH.here, HNode.nobj [("self", HVal.href 0)], ("self", HVal.href 0),
        by rfl, List.mem_cons_self _ _, ReachH.here⟩).2.2 ?_ ?_
    · intro r node hr kv hkv r' hv
      by_cases h0 : (0 : Nat) = r
      · subst h0
        simp only [lookupH, if_pos rfl] at hr
        obtain rfl : HNode.nobj [("self", HVal.href 0)] = node := by injection hr
        simp only [nodeEnum, List.mem_singleton] at hkv
        subst hkv
        obtain rfl : r' = 0 := by
          have h2 : HVal.href 0 = HVal.href r' := hv
          injection h2 with h3
          exact h3.symm
        rfl
      · simp [lookupH, h0] at hr
    · intro r hr
      obtain rfl : r = 0 := by injection hr with h2; exact h2.symm
      rfl
  · refine copyObjectViaJSON_error_conditions.2.1
      [(1, HNode.nobj [("a", HVal.hnum 3)])] (fun _ => 0) ?_ (HVal.href 1) 5 ?_
    · intro r node hr kv hkv r' hv
      by_cases h1 : (1 : Nat) = r
      · subst h1
        simp only [lookupH, if_pos rfl] at hr
        obtain rfl : HNode.nobj [("a", HVal.hnum 3)] = node := by injection hr
        simp only [nodeEnum, List.mem_singleton] at hkv
        subst hkv
        cases hv
      · simp [lookupH, h1] at hr
    · intro r hr
      obtain rfl : r = 1 := by injection hr with h2; exact h2.symm
      rfl


/-- Whether a heap value is a JSON-representable primitive. -/
def jsonPrim : HVal → Bool
  | .hnull => true
  | .hbool _ => true
  | .hnum _ => true
  | .hstr _ => true
  | _ => false

/-- The JSON text of a JSON-representable primitive. -/
def jvOfPrim : HVal → Jv
  | .hnull => .jnull
  | .hbool b => .jbool b
  | .hnum n => .jnum n
  | .hstr s => .jstr s
  | _ => .jnull

/-- Whether a heap value serializes to `undefined` and is hence dropped
from a mapping: `undefined`, symbolic atoms and Callables. -/
def droppedH : HVal → Bool
  | .hundef => true
  | .hsym _ => true
  | .hfun _ => true
  | _ => false

/-- One-step unfolding of the serializer on a reference. -/
theorem stringifyH_succ_ref (fuel : Nat) (h : Heap) (anc : List Nat) (r : Nat) :
    stringifyH (fuel + 1) h anc (.href r) =
      if r ∈ anc then some .cyc
      else match lookupH h r with
        | none => none
        | some (.nobj fs) =>
          match strFieldsWith (stringifyH fuel h (r :: anc)) fs with
          | none => none
          | some (.error _) => some .cyc
          | some (.ok fs') => some (.val (.jobj fs'))
        | some (.narr es) =>
          match strElemsWith (stringifyH fuel h (r :: anc)) es with
          | none => none
          | some (.error _) => some .cyc
          | some (.ok es') => some (.val (.jarr es')) := rfl

theorem stringifyH_flat (h : Heap) (anc : List Nat) (fs : List (String × HVal))
    (hflat : ∀ kv ∈ fs, jsonPrim kv.2 = true ∨ droppedH kv.2 = true) :
    ∀ fuel, 1 ≤ fuel → strFieldsWith (stringifyH fuel h anc) fs
      = some (.ok ((fs.filter (fun kv => jsonPrim kv.2)).map
          (fun kv => (kv.1, jvOfPrim kv.2)))) := by
  induction fs with
  | nil => intro fuel _; rfl
  | cons a t ih =>
    intro fuel hf
    obtain ⟨f, rfl⟩ : ∃ f, fuel = f + 1 := ⟨fuel - 1, by omega⟩
    obtain ⟨k0, v0⟩ := a
    have htail := ih (fun kv hm => hflat kv (List.mem_cons_of_mem _ hm)) (f + 1) hf
    rcases hflat (k0, v0) (List.mem_cons_self _ _) with hp | hd
    · cases v0 with
      | hnull =>
        rw [List.filter_cons_of_pos (by rfl)]
        simp only [strFieldsWith, List.map_cons]
        rw [show stringifyH (f + 1) h anc HVal.hnull
          = some (.val (jvOfPrim HVal.hnull)) from rfl, htail]
      | hbool b =>
        rw [List.filter_cons_of_pos (by rfl)]
        simp only [strFieldsWith, List.map_cons]
        rw [show stringifyH (f + 1) h anc (HVal.hbool b)
          = some (.val (jvOfPrim (HVal.hbool b))) from rfl, htail]
      | hnum n =>
        rw [List.filter_cons_of_pos (by rfl)]
        simp only [strFieldsWith, List.map_cons]
        rw [show stringifyH (f + 1) h anc (HVal.hnum n)
          = some (.val (jvOfPrim (HVal.hnum n))) from rfl, htail]
      | hstr s =>
        rw [List.filter_cons_of_pos (by rfl)]
        simp only [strFieldsWith, List.map_cons]
        rw [show stringifyH (f + 1) h anc (HVal.hstr s)
          = some (.val (jvOfPrim (HVal.hstr s))) from rfl, htail]
      | hundef => simp [jsonPrim] at hp
      | hsym s => simp [jsonPrim] at hp
      | hfun i => simp [jsonPrim] at hp
      | href r => simp [jsonPrim] at hp
    · cases v0 with
      | hundef =>
        rw [List.filter_cons_of_neg (by simp [jsonPrim])]
        simp only [strFieldsWith]
        rw [show stringifyH (f + 1) h anc HVal.hundef = some .undef from rfl]
        exact htail
      | hsym s =>
        rw [List.filter_cons_of_neg (by simp [jsonPrim])]
        simp only [strFieldsWith]
        rw [show stringifyH (f + 1) h anc (HVal.hsym s) = some .undef from rfl]
        exact htail
      | hfun i =>
        rw [List.filter_cons_of_neg (by simp [jsonPrim])]
        simp only [strFieldsWith]
        rw [show stringifyH (f + 1) h anc (HVal.hfun i) = some .undef from rfl]
        exact htail
      | hnull => simp [droppedH] at hd
      | hbool b => simp [droppedH] at hd
      | hnum n => simp [droppedH] at hd
      | hstr s => simp [droppedH] at hd
      | href r => simp [droppedH] at hd

theorem parseFields_prim (gs : List (String × HVal))
    (hp : ∀ kv ∈ gs, jsonPrim kv.2 = true) :
    ∀ c, parseFields (gs.map (fun kv => (kv.1, jvOfPrim kv.2))) c = ([], gs, c) := by
  induction gs with
  | nil => intro c; rfl
  | cons a t ih =>
    intro c
    obtain ⟨k0, v0⟩ := a
    have hhead := hp (k0, v0) (List.mem_cons_self _ _)
    have htail := ih (fun kv hm => hp kv (List.mem_cons_of_mem _ hm)) c
    cases v0 with
    | hnull =>
      simp only [List.map_cons, show jvOfPrim HVal.hnull = Jv.jnull from rfl,
        parseFields, jsonParse, htail, List.nil_append]
    | hbool b =>
      simp only [List.map_cons, show jvOfPrim (HVal.hbool b) = Jv.jbool b from rfl,
        parseFields, jsonParse, htail, List.nil_append]
    | hnum n =>
      simp only [List.map_cons, show jvOfPrim (HVal.hnum n) = Jv.jnum n from rfl,
        parseFields, jsonParse, htail, List.nil_append]
    | hstr s =>
      simp only [List.map_cons, show jvOfPrim (HVal.hstr s) = Jv.jstr s from rfl,
        parseFields, jsonParse, htail, List.nil_append]
    | hundef => simp [jsonPrim] at hhead
    | hsym s => simp [jsonPrim] at hhead
    | hfun i => simp [jsonPrim] at hhead
    | href r => simp [jsonPrim] at hhead

/-- C8 counterexample: `{a: Symbol.for('x')}` is a mapping holding only a
Primitive (the spec's Primitives include symbolic atoms), yet the
SerializeRoundTrip clone yields the empty mapping — the member is
dropped, so the copy is not structurally equal. -/
theorem copyObjectViaJSON_drops_symbol :
    copyObjectViaJSON 2 [(0, HNode.nobj [("a", HVal.hsym "x")])] (HVal.href 0) 1
      = some (JsonCopyResult.ok [(1, HNode.nobj [])] (HVal.href 1) 2) ∧
    [(("a" : String), HVal.hsym "x")] ≠ ([] : List (String × HVal)) :=
  ⟨rfl, by simp⟩

/-- C8 amended: for a mapping whose members are JSON-representable
primitives (null, boolean, number, text), possibly mixed with members that
serialize to `undefined` (Callables, symbolic atoms, `undefined`), the
SerializeRoundTrip clone returns a freshly allocated mapping holding
exactly the primitive members, unchanged and in order — a structurally
equal fresh copy once the non-serializable members are dropped.  In
particular `{a: 1, b: [1, 2, 3]}` round-trips to a structurally equal
fresh copy and `{a: 1, f: () => 1}` yields `{a: 1}`. -/
theorem copyObjectViaJSON_roundTrip :
    (∀ (h : Heap) (r : Nat) (fs : List (String × HVal)) (c : Nat),
      lookupH h r = some (.nobj fs) →
      (∀ kv ∈ fs, jsonPrim kv.2 = true ∨ droppedH kv.2 = true) →
      copyObjectViaJSON 2 h (.href r) c
        = some (.ok [(c, .nobj (fs.filter (fun kv => jsonPrim kv.2)))]
            (.href c) (c + 1))) ∧
    (copyObjectViaJSON 3
      [(0, HNode.nobj [("a", HVal.hnum 1), ("b", HVal.href 1)]),
        (1, HNode.narr [HVal.hnum 1, HVal.hnum 2, HVal.hnum 3])]
      (HVal.href 0) 2
      = some (.ok [(3, HNode.narr [HVal.hnum 1, HVal.hnum 2, HVal.hnum 3]),
          (2, HNode.nobj [("a", HVal.hnum 1), ("b", HVal.href 3)])]
          (HVal.href 2) 4)) ∧
    (copyObjectViaJSON 2 [(0, HNode.nobj [("a", HVal.hnum 1), ("f", HVal.hfun 5)])]
      (HVal.href 0) 1
      = some (.ok [(1, HNode.nobj [("a", HVal.hnum 1)])] (HVal.href 1) 2)) := by
  refine ⟨?_, rfl, rfl⟩
  intro h r fs c hlook hflat
  have hfields := stringifyH_flat h [r] fs hflat 1 (by omega)
  have hparse := parseFields_prim (fs.filter (fun kv => jsonPrim kv.2))
    (fun kv hm => (List.mem_filter.mp hm).2) (c + 1)
  rw [show (2 : Nat) = 1 + 1 from rfl]
  simp only [copyObjectViaJSON, stringifyH_succ_ref, hlook]
  rw [if_neg (List.not_mem_nil r)]
  rw [hfields]
  simp only [jsonParse, hparse, List.nil_append]

theorem copyObjectViaJSON_roundTrip_witness :
    copyObjectViaJSON 2 [(4, HNode.nobj [("x", HVal.hnum 9), ("s", HVal.hsym "q")])]
      (HVal.href 4) 7
      = some (.ok
          [(7, HNode.nobj (([(("x" : String), HVal.hnum 9), ("s", HVal.hsym "q")]).filter
            (fun kv => jsonPrim kv.2)))]
          (HVal.href 7) 8) :=
  copyObjectViaJSON_roundTrip.1
    [(4, HNode.nobj [("x", HVal.hnum 9), ("s", HVal.hsym "q")])] 4
    [("x", HVal.hnum 9), ("s", HVal.hsym "q")] 7 rfl (by decide)

end CoreJS
